import Mathlib

/-!
Verification of core algorithms of a terminal text editor written in C
(src/editor.c, src/array.h).  The C code is shallowly embedded: bytes are
naturals in 0..255, C strings are lists of bytes, growable arrays are lists,
and every function relevant to the checked properties is translated to an
executable Lean definition that mirrors the control flow of its C source.
-/

namespace Editor

/-! ## Key codes (enum at editor.c:125) -/

def KeyCodeTab : Nat := 9
def KeyCodeEnter : Nat := 10
def KeyCodeEscape : Nat := 27
def KeyCodeDelete : Nat := 127
def KeyCodeCtrlDelete : Nat := 8
def KeyCodePrintableStart : Nat := 32
def KeyCodePrintableEnd : Nat := 126
def KeyCodeAsciiEnd : Nat := 255
def KeyCodeUnknown : Nat := 256
def KeyCodeNone : Nat := 257
def KeyCodeUp : Nat := 258
def KeyCodeDown : Nat := 259
def KeyCodeLeft : Nat := 260
def KeyCodeRight : Nat := 261
def KeyCodeEnd : Nat := 262
def KeyCodeHome : Nat := 263
def KeyCodeShiftUp : Nat := 264
def KeyCodeShiftDown : Nat := 265
def KeyCodeShiftLeft : Nat := 266
def KeyCodeShiftRight : Nat := 267
def KeyCodeShiftEnd : Nat := 268
def KeyCodeShiftHome : Nat := 269
def KeyCodeCtrlUp : Nat := 270
def KeyCodeCtrlDown : Nat := 271
def KeyCodeCtrlLeft : Nat := 272
def KeyCodeCtrlRight : Nat := 273

/-! ## Input decoder (get_input, editor.c:675-732)

The argument is the byte group returned by one read call (up to 64 bytes);
a read of zero bytes yields KeyCodeNone.  The translation follows the C
branch structure exactly: note that when the opening `ESC [` pattern is
recognized but no case of the inner switch applies, `code` keeps its initial
value `keys[0] = 27`. -/

def get_input (keys : List Nat) : Nat :=
  if keys.length = 0 then KeyCodeNone
  else
    let code := keys.getD 0 0
    if code = 27 ∧ 2 < keys.length ∧ keys.getD 1 0 = 91 then
      if keys.length = 3 then
        match keys.getD 2 0 with
        | 65 => KeyCodeUp
        | 66 => KeyCodeDown
        | 68 => KeyCodeLeft
        | 67 => KeyCodeRight
        | 72 => KeyCodeHome
        | 75 => KeyCodeShiftEnd
        | _ => code
      else if keys.length = 4 then
        if keys.getD 2 0 = 52 ∧ keys.getD 3 0 = 126 then KeyCodeEnd
        else if keys.getD 2 0 = 50 ∧ keys.getD 3 0 = 74 then KeyCodeShiftHome
        else code
      else if keys.length = 6 ∧ keys.getD 2 0 = 49 ∧ keys.getD 3 0 = 59 then
        if keys.getD 4 0 = 50 then
          match keys.getD 5 0 with
          | 65 => KeyCodeShiftUp
          | 66 => KeyCodeShiftDown
          | 68 => KeyCodeShiftLeft
          | 67 => KeyCodeShiftRight
          | _ => code
        else if keys.getD 4 0 = 53 then
          match keys.getD 5 0 with
          | 65 => KeyCodeCtrlUp
          | 66 => KeyCodeCtrlDown
          | 68 => KeyCodeCtrlLeft
          | 67 => KeyCodeCtrlRight
          | _ => code
        else code
      else code
    else if code = 27 ∧ 1 < keys.length then KeyCodeNone
    else code

/-! ## File open and save (open_file editor.c:879-947, save_file editor.c:959-976)

A file on disk is a byte list.  Byte 10 is LF, byte 13 is CR. -/

/-- Validation loop of open_file (editor.c:902-916): reject when a byte that
is neither LF nor CR is seen while the carriage-return flag is set.  The flag
is set by CR, cleared by LF, and left unchanged by other bytes. -/
def crValidAux : List Nat → Nat → Bool
  | [], _ => true
  | b :: rest, cr =>
    if b = 10 then crValidAux rest 0
    else if b = 13 then crValidAux rest 1
    else if cr ≠ 0 then false
    else crValidAux rest cr

def crValid (data : List Nat) : Bool := crValidAux data 0

/-- Line-splitting loop of open_file (editor.c:920-944).  `pending` holds the
bytes of data[index..i), `cr` mirrors the carriage-return flag, `acc` holds
the lines completed so far.  At LF the current line receives
data[index..i-cr); at end of input the always-empty current line is emitted,
followed by one extra line holding data[index..size-cr) when index < size. -/
def openLinesAux : List Nat → List Nat → Nat → List (List Nat) → List (List Nat)
  | [], pending, cr, acc =>
    if pending.length ≠ 0 then acc ++ [[]] ++ [pending.take (pending.length - cr)]
    else acc ++ [[]]
  | b :: rest, pending, cr, acc =>
    if b = 10 then openLinesAux rest [] 0 (acc ++ [pending.take (pending.length - cr)])
    else if b = 13 then openLinesAux rest (pending ++ [b]) 1 acc
    else openLinesAux rest (pending ++ [b]) cr acc

def openLines (data : List Nat) : List (List Nat) := openLinesAux data [] 0 []

/-- Line contents produced by opening a file with the given bytes: none when
the validation loop rejects the contents (editor.c:913-914 runs before any
file or line is allocated). -/
def open_file_lines (data : List Nat) : Option (List (List Nat)) :=
  if crValid data then some (openLines data) else none

/-- Byte stream written by save_file (editor.c:963-970): the separator
`"\r\n"` is written before every line except the first. -/
def save_file_bytes (lines : List (List Nat)) : List Nat :=
  (List.intercalate [13, 10] lines)

/-! ## Character classes (editor.c:1060-1074) -/

def EditorSpacesPerTab : Nat := 2

def is_letter (c : Nat) : Bool := (97 ≤ c && c ≤ 122) || (65 ≤ c && c ≤ 90)

def is_number (c : Nat) : Bool := 48 ≤ c && c ≤ 57

def is_indentifier_literal (c : Nat) : Bool := is_letter c || is_number c || c = 95

/-! ## Delete counting (get_delete_count, editor.c:1273-1319) -/

structure DelCounts where
  space_count : Nat
  char_count : Nat
  other_count : Nat
deriving DecidableEq

/-- Loop body of get_delete_count (editor.c:1280-1307), one byte of the
prefix before the cursor at a time. -/
def delete_count_step (s : DelCounts) (b : Nat) : DelCounts :=
  if b = 32 then
    { space_count := s.space_count + 1
      char_count := if s.space_count = 2 then 0 else s.char_count
      other_count := if s.space_count = 2 then 0 else s.other_count }
  else if is_indentifier_literal b then
    { space_count := 0
      char_count := (if s.space_count ≠ 0 then 0 else s.char_count) + 1
      other_count := 0 }
  else
    { space_count := 0
      char_count := 0
      other_count := (if s.space_count ≠ 0 then 0 else s.other_count) + 1 }

/-- Number of characters removed by a delete keypress (editor.c:1273-1319);
`data` is the line's byte content and `cursor` the cursor column. -/
def get_delete_count (data : List Nat) (cursor : Nat) (ctrl : Bool) : Nat :=
  if cursor = 0 then 1
  else
    let s := (data.take cursor).foldl delete_count_step ⟨0, 0, 0⟩
    if ctrl then s.space_count + s.char_count + s.other_count
    else if s.space_count ≠ 0 ∧ s.space_count % EditorSpacesPerTab = 0 then EditorSpacesPerTab
    else 1

/-- Length of the run (spaces, identifier bytes, or other bytes) that
immediately precedes the cursor; this is what the specification claims
ctrl-delete removes. -/
def last_run_length (data : List Nat) (cursor : Nat) : Nat :=
  let r := (data.take cursor).reverse
  match r.head? with
  | none => 0
  | some b =>
    if b = 32 then (r.takeWhile (fun c => c = 32)).length
    else if is_indentifier_literal b then (r.takeWhile (fun c => is_indentifier_literal c)).length
    else (r.takeWhile (fun c => !is_indentifier_literal c && c ≠ 32)).length

/-- Amended description of the ctrl-delete count actually computed by the
code: the trailing run of spaces, plus — when that space run is shorter than
three — the whole identifier run or other-byte run immediately before it. -/
def ctrl_delete_amended (data : List Nat) (cursor : Nat) : Nat :=
  if 3 ≤ (((data.take cursor).reverse).takeWhile (fun c => c = 32)).length then
    (((data.take cursor).reverse).takeWhile (fun c => c = 32)).length
  else
    (((data.take cursor).reverse).takeWhile (fun c => c = 32)).length +
      (match ((((data.take cursor).reverse).drop
          (((data.take cursor).reverse).takeWhile (fun c => c = 32)).length)).head? with
       | none => 0
       | some b =>
         if is_indentifier_literal b then
           ((((data.take cursor).reverse).drop
              (((data.take cursor).reverse).takeWhile (fun c => c = 32)).length).takeWhile
             (fun c => is_indentifier_literal c)).length
         else
           ((((data.take cursor).reverse).drop
              (((data.take cursor).reverse).takeWhile (fun c => c = 32)).length).takeWhile
             (fun c => !is_indentifier_literal c && c ≠ 32)).length)

/-! ## Boyer-Moore lookup tables (make_find_lookup, editor.c:1660-1681) -/

/-- Bad-character table: every byte starts at the pattern length, then each
pattern position writes `size - i - 1`, the last occurrence winning
(editor.c:1661-1667). -/
def find_char_lookup (word : List Nat) (c : Nat) : Nat :=
  (List.range word.length).foldl
    (fun acc i => if word.getD i 0 = c then word.length - i - 1 else acc) word.length

/-- Comparison `!strncmp(data + j, data + i, size - i)` of editor.c:1672:
the suffix of the pattern starting at `i` also occurs at `j`. -/
def suffix_match (P : List Nat) (i j : Nat) : Bool :=
  decide ((P.drop j).take (P.length - i) = (P.drop i).take (P.length - i))

/-- Inner-loop body of the good-suffix computation (editor.c:1671-1677);
`j` runs downward, so the fold is over the reversed range. -/
def good_suffix_step (P : List Nat) (i : Nat) (shift j : Nat) : Nat :=
  if suffix_match P i j ∧ ((j ≠ 0 ∧ P.getD j 0 ≠ P.getD (i - 1) 0) ∨ shift = 0)
  then i - j else shift

/-- Good-suffix table entry `find_index_lookup[i]` (editor.c:1669-1680). -/
def find_index_lookup (P : List Nat) (i : Nat) : Nat :=
  let shift := ((List.range i).reverse).foldl (good_suffix_step P i) 0
  if shift = 0 then 1 else shift

/-- Value the specification claims for the good-suffix entry: the smallest
positive distance `i - j` (largest such `j`) with a suffix match at `j` and
either `j = 0` or `P[j-1] ≠ P[i-1]`; 1 when no such `j` exists. -/
def good_suffix_claimed (P : List Nat) (i : Nat) : Nat :=
  match ((List.range i).reverse).find?
      (fun j => suffix_match P i j && (decide (j = 0) || decide (P.getD (j - 1) 0 ≠ P.getD (i - 1) 0))) with
  | some j => i - j
  | none => 1

/-- Value the code actually computes: distance to the smallest `j ≥ 1` with
a suffix match and `P[j] ≠ P[i-1]`; otherwise distance to the largest
matching `j`; otherwise 1. -/
def good_suffix_amended (P : List Nat) (i : Nat) : Nat :=
  match (List.range i).find?
      (fun j => decide (j ≠ 0) && suffix_match P i j && decide (P.getD j 0 ≠ P.getD (i - 1) 0)) with
  | some j => i - j
  | none =>
    match ((List.range i).reverse).find? (fun j => suffix_match P i j) with
    | some j => i - j
    | none => 1

/-! ## Boyer-Moore scan of one line (find, editor.c:1685-1715) -/

/-- Length of the longest common prefix of two byte lists. -/
def commonPrefixLen : List Nat → List Nat → Nat
  | a :: as, b :: bs => if a = b then commonPrefixLen as bs + 1 else 0
  | _, _ => 0

/-- Matched-character count of the backward inner loop (editor.c:1696-1700)
when the outer iteration starts at data index `tmp`. -/
def backMatch (word data : List Nat) (tmp : Nat) : Nat :=
  commonPrefixLen word.reverse ((data.take (tmp + 1)).reverse)

/-- Skip distance on a mismatch (editor.c:1708). -/
def find_skip (word data : List Nat) (di k : Nat) : Nat :=
  if 0 < k then find_index_lookup word k else find_char_lookup word (data.getD di 0)

/-- One outer iteration of `find`: the next scan index, and the recorded
match position when the whole pattern matched (editor.c:1691-1710). -/
def find_step (word data : List Nat) (di : Nat) : Nat × Option Nat :=
  let k := backMatch word data di
  if k = word.length then (di + 1, some (di + 1 - word.length))
  else (di + find_skip word data di k, none)

/-- Outer loop of `find`, with explicit fuel; `none` means the fuel ran out
before the scan index passed the end of the line. -/
def findLoop (word data : List Nat) : Nat → Nat → List Nat → Option (List Nat)
  | 0, di, acc => if di < data.length then none else some acc
  | fuel + 1, di, acc =>
    if di < data.length then
      match find_step word data di with
      | (di2, some x) => findLoop word data fuel di2 (acc ++ [x])
      | (di2, none) => findLoop word data fuel di2 acc
    else some acc

/-- Match columns reported by `find` for one line; the scan starts at
`word_length - 1` (editor.c:1688). -/
def find_matches (word data : List Nat) : List Nat :=
  (findLoop word data (data.length + 1) (word.length - 1) []).getD []

/-- Match list built by find_in_file (editor.c:1739-1773) over the lines of
the current file, on the uninterrupted path: entries are `(x, y)` pairs,
lines scanned in order (empty patterns scan nothing, editor.c:1751). -/
def find_in_file_matches (pattern : List Nat) (lines : List (List Nat)) : List (Nat × Nat) :=
  if pattern.length = 0 then []
  else (lines.enum).flatMap (fun p => (find_matches pattern p.2).map (fun x => (x, p.1)))

/-! ## Region tree traversal (editor.c:2543-2579)

A region is identified by its path from the root: `false` descends into
`childs[0]` (left/top), `true` into `childs[1]` (right/bottom).  The C
code walks parent pointers upward, which corresponds to examining the path
from its last element. -/

inductive RTree where
  | leaf : Nat → RTree
  | node : RTree → RTree → RTree
deriving DecidableEq

def subtreeAt : RTree → List Bool → Option RTree
  | t, [] => some t
  | RTree.leaf _, _ :: _ => none
  | RTree.node l r, b :: p => subtreeAt (if b then r else l) p

/-- Path of `recurse_left` (editor.c:2543-2545): keep descending into
`childs[0]`. -/
def recurse_left : RTree → List Bool
  | .leaf _ => []
  | .node l _ => false :: recurse_left l

/-- Path of `recurse_right` (editor.c:2549-2551). -/
def recurse_right : RTree → List Bool
  | .leaf _ => []
  | .node _ r => true :: recurse_right r

/-- Upward walk of get_next_region (editor.c:2555-2565) expressed on the
reversed path: at the root take the leftmost leaf; from a right child keep
climbing; from a left child descend to the leftmost leaf of the sibling. -/
def nextUp (t : RTree) : List Bool → List Bool
  | [] => recurse_left t
  | true :: rest => nextUp t rest
  | false :: rest =>
    let sib := rest.reverse ++ [true]
    sib ++ recurse_left ((subtreeAt t sib).getD (RTree.leaf 0))

def get_next_region (t : RTree) (p : List Bool) : List Bool := nextUp t p.reverse

/-- Upward walk of get_previous_region (editor.c:2569-2579), the mirror of
`nextUp`. -/
def prevUp (t : RTree) : List Bool → List Bool
  | [] => recurse_right t
  | false :: rest => prevUp t rest
  | true :: rest =>
    let sib := rest.reverse ++ [false]
    sib ++ recurse_right ((subtreeAt t sib).getD (RTree.leaf 0))

def get_previous_region (t : RTree) (p : List Bool) : List Bool := prevUp t p.reverse

/-- All leaf paths of the tree, in left-to-right (in-order) order. -/
def leafPaths : RTree → List (List Bool)
  | .leaf _ => [[]]
  | .node l r =>
    (leafPaths l).map (fun p => false :: p) ++ (leafPaths r).map (fun p => true :: p)

/-! ## Syntax highlighting of one line (render_line, editor.c:2107-2204)

Only the C language rule set exists in the source (editor.c:294-318):
single-line comments start with `//`, and numbers, strings and keywords are
enabled.  Color classes are the values of the ColorType enum
(editor.c:43-62). -/

def str (s : String) : List Nat := s.toList.map Char.toNat

/-- Keyword tables of the C language, indexed by length (editor.c:284-306). -/
def c_keywords : Nat → List (List Nat)
  | 2 => [str "if"]
  | 3 => [str "int", str "for"]
  | 4 => [str "case", str "else", str "true", str "char", str "void", str "bool"]
  | 5 => [str "float", str "break", str "false", str "while"]
  | 6 => [str "static", str "struct", str "return", str "#endif"]
  | 7 => [str "#define", str "#ifndef"]
  | 8 => [str "#include"]
  | _ => []

/-- Keyword check of editor.c:2172-2184: the run length must be below
MaxKeywordSize and the word must occur in the table for its length. -/
def is_c_keyword (word : List Nat) : Bool :=
  word.length < 32 && (c_keywords word.length).contains word

/-- Classification loop of render_line (editor.c:2129-2194) producing the
color byte for every character position.  Color codes: 1 editor foreground,
11 comment, 13 keyword, 14 string, 16 number. -/
def highlight_loop (l : List Nat) : List Nat :=
  match l with
  | [] => []
  | c :: rest =>
    if c = 32 then 1 :: highlight_loop rest
    else if is_number c then
      let run := rest.takeWhile (fun b => is_number b)
      List.replicate (run.length + 1) 16 ++ highlight_loop (rest.drop run.length)
    else if c = 34 then
      let run := rest.takeWhile (fun b => b ≠ 34)
      let closing := if run.length < rest.length then 1 else 0
      List.replicate (run.length + 1 + closing) 14 ++ highlight_loop (rest.drop (run.length + closing))
    else if c = 47 ∧ rest.headD 0 = 47 then
      List.replicate l.length 11
    else if is_letter c then
      let run := rest.takeWhile (fun b => is_indentifier_literal b)
      let color := if is_c_keyword (c :: run) then 13 else 1
      List.replicate (run.length + 1) color ++ highlight_loop (rest.drop run.length)
    else 1 :: highlight_loop rest
termination_by l.length
decreasing_by
  all_goals (simp [List.length_drop]) <;> omega

/-! ## Text buffer data model (editor.c:251-256, 347-355, 376-431) -/

structure LineM where
  chars : List Nat
  colors : List Nat
  redraw : Bool
deriving DecidableEq

instance : Inhabited LineM := ⟨⟨[], [], false⟩⟩

structure FileM where
  path : List Nat
  lines : List LineM
  redraw : Bool
  saved : Bool
  hasHighlight : Bool
deriving DecidableEq

instance : Inhabited FileM := ⟨⟨[], [], false, false, false⟩⟩

structure FileStateM where
  file : Nat
  cursor_x : Int
  cursor_y : Int
  cursor_x_ideal : Int
  offset_x : Int
  offset_y : Int
  mark_x : Int
  mark_y : Int
  mark_valid : Bool
  previous_keycode : Nat
deriving DecidableEq

instance : Inhabited FileStateM := ⟨⟨0, 0, 0, 0, 0, 0, 0, 0, false, 0⟩⟩

/-- Pane state (struct Window, editor.c:395-431).  Files are referenced by
their index in the process-wide file list; the fields `region_x`,
`region_y`, `region_width`, `region_height` mirror the rectangle of the
pane's region, and `is_root` tells whether that region is the tree root
(region->parent == 0). -/
structure Window where
  file : Option Nat
  file_states : List FileStateM
  redraw : Bool
  offset_x : Int
  offset_y : Int
  cursor_x : Int
  cursor_y : Int
  cursor_x_ideal : Int
  mark_valid : Bool
  mark_x : Int
  mark_y : Int
  minibar_mode : Nat
  minibar_cursor : Nat
  minibar_offset : Int
  minibar_active : Bool
  minibar_data : List Nat
  error_present : Bool
  error_message : List Nat
  «matches» : List (Nat × Nat)
  match_index : Int
  match_length : Nat
  saved_cursor_x : Int
  saved_cursor_y : Int
  previous_keycode : Nat
  region_x : Int
  region_y : Int
  region_width : Int
  region_height : Int
  is_root : Bool
deriving DecidableEq

def getFile (files : List FileM) (i : Nat) : FileM := files.getD i default

/-- Minibar modes (editor.c:195-201). -/
def MinibarModeOpen : Nat := 0
def MinibarModeNew : Nat := 1
def MinibarModeCommand : Nat := 2
def MinibarModeFind : Nat := 3

/-- Recoloring of a mutated line (render_line, editor.c:2107-2122): the
redraw flag is set in every case; when the file has a highlight rule set the
color array is rebuilt to one entry per character. -/
def render_line (hasHL : Bool) (line : LineM) : LineM :=
  if hasHL then { line with redraw := true, colors := highlight_loop line.chars }
  else { line with redraw := true }

/-! ## Cursor limiting and offsets (editor.c:1047-1171) -/

def count_digits (n : Nat) : Nat :=
  if n < 10 then 1 else count_digits (n / 10) + 1

/-- Left padding of a pane (editor.c:1078-1084). -/
def get_left_padding (files : List FileM) (w : Window) : Int :=
  (if w.region_x ≠ 0 then 2 else 0) +
    (match w.file with
     | some fi => (count_digits ((getFile files fi).lines.length - 1) : Int)
     | none => 0) + 2

/-- Offset reconciliation for one axis (get_updated_offset,
editor.c:1109-1123). -/
def get_updated_offset (cursor offset width left_margin right_margin : Int) : Int :=
  let adjust := offset + left_margin - cursor
  let offset2 := if adjust > 0 then max (offset - adjust) 0 else offset
  let adjust2 := cursor - (offset2 + width - right_margin)
  if adjust2 > 0 then offset2 + adjust2 else offset2

/-- Offset reconciliation of both axes (update_window_offsets,
editor.c:1127-1140). -/
def update_window_offsets (files : List FileM) (w : Window) : Window :=
  let width := w.region_width - get_left_padding files w
  let height := w.region_height - 1
  let ox := get_updated_offset w.cursor_x w.offset_x width 6 6
  let oy := get_updated_offset w.cursor_y w.offset_y height 6 6
  { w with offset_x := ox, offset_y := oy,
           redraw := if ox ≠ w.offset_x ∨ oy ≠ w.offset_y then true else w.redraw }

/-- Cursor clamping (limit_window_cursor, editor.c:1144-1150); callers
guarantee the pane has a file. -/
def limit_window_cursor (files : List FileM) (w : Window) : Window :=
  let f := getFile files (w.file.getD 0)
  let cy := min (max w.cursor_y 0) ((f.lines.length : Int) - 1)
  let cx := min (max w.cursor_x 0) ((f.lines.getD cy.toNat default).chars.length : Int)
  update_window_offsets files { w with cursor_y := cy, cursor_x := cx }

/-! ## Character deletion (editor.c:1247-1330) -/

/-- Line removal, delete_line via delete_lines (editor.c:849-864).
The remove-multiple array helper used there is not part of src/array.h;
its effect (shift the tail left over the removed span) follows §4.1 of the
specification. -/
def delete_line (f : FileM) (index : Nat) : FileM :=
  { f with lines := f.lines.take index ++ f.lines.drop (index + 1), redraw := true }

/-- Backspace-style deletion of one character (delete_character,
editor.c:1247-1269).  Note that `file->saved = false` at editor.c:1268 runs
in every case, also when the cursor is at (0, 0) and no branch applies. -/
def delete_character (files : List FileM) (w : Window) : List FileM × Window :=
  let fi := w.file.getD 0
  let f := getFile files fi
  let line := f.lines.getD w.cursor_y.toNat default
  let step :=
    if w.cursor_x ≠ 0 then
      let chars2 := line.chars.take (w.cursor_x.toNat - 1) ++ line.chars.drop w.cursor_x.toNat
      let line2 := render_line f.hasHighlight { line with chars := chars2 }
      (files.set fi { f with lines := f.lines.set w.cursor_y.toNat line2 },
       { w with cursor_x := w.cursor_x - 1, cursor_x_ideal := w.cursor_x - 1 })
    else if w.cursor_y ≠ 0 then
      let prev := f.lines.getD (w.cursor_y.toNat - 1) default
      let w2 := { w with cursor_x := (prev.chars.length : Int),
                         cursor_x_ideal := (prev.chars.length : Int),
                         cursor_y := w.cursor_y - 1 }
      let prev2 := render_line f.hasHighlight { prev with chars := prev.chars ++ line.chars }
      let f2 := { f with lines := f.lines.set (w.cursor_y.toNat - 1) prev2 }
      (files.set fi (delete_line f2 (w2.cursor_y.toNat + 1)), w2)
    else (files, w)
  (step.1.set fi { getFile step.1 fi with saved := false }, step.2)

/-- Word- or character-wise deletion (delete_character_or_word,
editor.c:1323-1330): delete_character is applied `count` times. -/
def delete_character_or_word (files : List FileM) (w : Window) (ctrl : Bool) :
    List FileM × Window :=
  let f := getFile files (w.file.getD 0)
  let line := f.lines.getD w.cursor_y.toNat default
  let count := get_delete_count line.chars w.cursor_x.toNat ctrl
  (fun st => delete_character st.1 st.2)^[count] (files, w)

/-! ## Whole-editor state for the minibar model

The process-wide pieces the minibar can touch: the open-file list, the
color theme, and the focused pane.  The disk is an association list from
path to file bytes, standing in for the read system call of open_file. -/

structure EState where
  files : List FileM
  window : Window
  disk : List (List Nat × List Nat)
  current_theme : Int
deriving DecidableEq

/-! ## Opening and creating files (editor.c:788-955) -/

/-- Path lookup among already-open files (try_open_existing_file,
editor.c:868-875); `strncmp(stored, path, path_size)` succeeds when the
first `path_size` bytes of the stored path equal the given path. -/
def try_open_existing (files : List FileM) (path : List Nat) : Option Nat :=
  (List.range files.length).find?
    (fun i => decide ((getFile files i).path.take path.length = path))

/-- Extension match of allocate_file (editor.c:796-809) against the only
language in the table, whose extension list is `{".c"}`. -/
def path_has_c_extension (path : List Nat) : Bool :=
  decide (2 < path.length ∧ path.drop (path.length - 2) = [46, 99])

/-- Lines of a freshly loaded file as Line records: every line is passed
through render_line as it is completed (editor.c:929 and 943), except the
empty line that insert_line creates after the last LF (editor.c:931), which
is left as calloc made it.  That line sits at index `number of LF bytes`. -/
def load_lines (data : List Nat) (hl : Bool) : List LineM :=
  let nl := (data.filter (fun b => b = 10)).length
  (openLines data).enum.map (fun p =>
    if p.1 = nl then { chars := p.2, colors := [], redraw := false }
    else render_line hl { chars := p.2, colors := [], redraw := false })

/-- Full open_file (editor.c:879-947) against the open-file list and the
disk: an already-open path is returned as is; otherwise the bytes are
validated (rejecting before any allocation) and split into lines.  The
result carries the updated file list and the index of the opened file. -/
def open_file (files : List FileM) (disk : List (List Nat × List Nat))
    (path : List Nat) : List FileM × Option Nat :=
  match try_open_existing files path with
  | some i => (files, some i)
  | none =>
    match disk.find? (fun e => decide (e.1 = path)) with
    | none => (files, none)
    | some e =>
      if crValid e.2 then
        let hl := path_has_c_extension path
        let f : FileM := { path := path, lines := load_lines e.2 hl,
                           redraw := true, saved := true, hasHighlight := hl }
        (files ++ [f], some files.length)
      else (files, none)

/-- Creation of a one-line empty file (create_file, editor.c:951-955). -/
def create_file (files : List FileM) (path : List Nat) : List FileM × Nat :=
  let f : FileM := { path := path, lines := [default],
                     redraw := true, saved := true,
                     hasHighlight := path_has_c_extension path }
  (files ++ [f], files.length)

/-- View-state switch between files in a pane (change_file,
editor.c:993-1043). -/
def change_file (w : Window) (fi : Nat) : Window :=
  let w1 :=
    match w.file with
    | none => w
    | some old =>
      let st : FileStateM :=
        { file := old, cursor_x := w.cursor_x, cursor_y := w.cursor_y,
          cursor_x_ideal := w.cursor_x_ideal, offset_x := w.offset_x,
          offset_y := w.offset_y, mark_x := w.mark_x, mark_y := w.mark_y,
          mark_valid := w.mark_valid, previous_keycode := w.previous_keycode }
      match w.file_states.findIdx? (fun s : FileStateM => decide (s.file = old)) with
      | some i => { w with file_states := w.file_states.set i st }
      | none => { w with file_states := w.file_states ++ [st] }
  let w2 := { w1 with file := some fi }
  match w1.file_states.find? (fun s : FileStateM => decide (s.file = fi)) with
  | some st =>
    { w2 with cursor_x := st.cursor_x, cursor_y := st.cursor_y,
              cursor_x_ideal := st.cursor_x_ideal, offset_x := st.offset_x,
              offset_y := st.offset_y, mark_x := st.mark_x, mark_y := st.mark_y,
              mark_valid := st.mark_valid, previous_keycode := st.previous_keycode,
              redraw := true }
  | none =>
    { w2 with cursor_x := 0, cursor_y := 0, cursor_x_ideal := 0,
              offset_x := 0, offset_y := 0, mark_x := 0, mark_y := 0,
              mark_valid := false, previous_keycode := 0, redraw := true }

/-! ## Minibar (editor.c:1467-1487, 1685-1793, 1798-1938, 1942-2076) -/

/-- Error line display (display_error, editor.c:744-755). -/
def display_error (w : Window) (msg : List Nat) : Window :=
  { w with error_message := msg, error_present := true }

/-- Minibar mode entry (enter_minibar_mode, editor.c:1467-1476): only find
mode records the cursor in saved_cursor_x/saved_cursor_y. -/
def enter_minibar_mode (w : Window) (mode : Nat) : Window :=
  let w2 := { w with minibar_active := true, minibar_mode := mode,
                     error_present := false }
  if mode = MinibarModeFind then
    { w2 with saved_cursor_x := w.cursor_x, saved_cursor_y := w.cursor_y }
  else w2

/-- Minibar mode exit (exit_minibar_mode, editor.c:1480-1487). -/
def exit_minibar_mode (w : Window) : Window :=
  { w with minibar_data := [], «matches» := [], minibar_active := false,
           minibar_cursor := 0, minibar_offset := 0 }

/-- Cursor placement on the selected match (set_cursor_based_on_position,
editor.c:1721-1735).  The C code indexes matches with match_index without a
bounds check; the model reads a default entry there. -/
def set_cursor_based_on_position (w : Window) : Window :=
  let pos := w.«matches».getD w.match_index.toNat (0, 0)
  let height := w.region_height - 1
  let w2 := if (pos.2 : Int) ≥ w.offset_y + height - 6 then { w with offset_y := 999999 } else w
  { w2 with cursor_y := (pos.2 : Int), cursor_x := (pos.1 : Int), redraw := true }

/-- Per-keystroke search over the current file (find_in_file,
editor.c:1739-1793) on the uninterrupted path (input_is_pending false):
the match list is rebuilt, match_length is updated, match_index moves to the
first match at or below the saved cursor line when one exists, and the
cursor is placed on the selected match. -/
def find_in_file (files : List FileM) (w : Window) : Window :=
  let f := getFile files (w.file.getD 0)
  let pattern := w.minibar_data
  if pattern.length = 0 then { w with «matches» := [], redraw := true }
  else
    let ms := find_in_file_matches pattern (f.lines.map (fun ln => ln.chars))
    let w2 := { w with «matches» := ms, match_length := pattern.length }
    let w3 :=
      match (List.range ms.length).find?
          (fun i => decide (((ms.getD i (0, 0)).2 : Int) ≥ w.saved_cursor_y)) with
      | some i => { w2 with match_index := (i : Int) }
      | none => w2
    set_cursor_based_on_position w3

/-! ## Minibar command parsing (editor.c:1798-1938)

The input is null-terminated before parsing; reading past the end of the
byte list stands for reading that terminator. -/

def skip_spaces (l : List Nat) : List Nat := l.dropWhile (fun b => b = 32)

/-- Keyword consumption (skip_identifier, editor.c:1822-1833). -/
def skip_identifier (l : List Nat) (kw : List Nat) : Option (List Nat) :=
  let l2 := skip_spaces l
  if l2.take kw.length = kw then some (l2.drop kw.length) else none

/-- Single-character consumption (skip_char, editor.c:1856-1865). -/
def skip_char (l : List Nat) (c : Nat) : Option (List Nat) :=
  let l2 := skip_spaces l
  if l2.headD 0 = c then some l2.tail else none

/-- Identifier read (read_identifier, editor.c:1837-1852); the returned run
may be empty. -/
def read_identifier (l : List Nat) : List Nat × List Nat :=
  let l2 := skip_spaces l
  (l2.takeWhile (fun b => is_indentifier_literal b), l2.dropWhile (fun b => is_indentifier_literal b))

/-- Number read via strtol (read_number, editor.c:1869-1884). -/
def read_number (l : List Nat) : Option Int :=
  let l2 := skip_spaces l
  let (sign, l3) : Int × List Nat :=
    if l2.headD 0 = 45 then (-1, l2.tail)
    else if l2.headD 0 = 43 then (1, l2.tail) else (1, l2)
  let digits := l3.takeWhile (fun b => is_number b)
  if digits.length = 0 then none
  else some (sign * digits.foldl (fun acc d => acc * 10 + ((d : Int) - 48)) 0)

/-- Theme names (editor.c:75-121): index 0 is "default", index 1
(ColorThemeLight) has no initializer and hence a null name, index 2 is
"blow". -/
def theme_name : Nat → Option (List Nat)
  | 0 => some (str "default")
  | 2 => some (str "blow")
  | _ => none

/-- Effect of split_window plus resize_child_regions on the pane being
split (editor.c:2636-2654, 2498-2539): the pane becomes childs[0] of its
former region, so it keeps x and y; a stacked split gives it
`limit(height/2, 10, height-10)` rows, a side-by-side split
`limit(width/2, 40, width-40-1)` columns (the split ratio is 0.5, whose
float product truncates like integer halving); the reflow marks the pane
for redraw, and its region is no longer the root.  The newly allocated
sibling pane does not affect the focused pane. -/
def split_window_effect (w : Window) (vertical : Bool) : Window :=
  if vertical then
    { w with region_height := max (min (w.region_height / 2) (w.region_height - 10)) 10,
             redraw := true, is_root := false }
  else
    { w with region_width := max (min (w.region_width / 2) (w.region_width - 40 - 1)) 40,
             redraw := true, is_root := false }

/-- Command interpreter (handle_command, editor.c:1888-1938).  The result is
none when the command removes the pane (remove_window frees it,
editor.c:2595-2618); on the root region remove_window returns at once. -/
def handle_command (st : EState) : Option EState :=
  let data := st.window.minibar_data
  match skip_identifier data (str "split") with
  | some rest =>
    if (skip_char rest 45).isSome then
      some { st with window := split_window_effect st.window true }
    else if (skip_char rest 124).isSome then
      some { st with window := split_window_effect st.window false }
    else some { st with window := display_error st.window (str "cant split") }
  | none =>
  match skip_identifier data (str "theme") with
  | some rest =>
    let theme : Int :=
      match read_number rest with
      | some v => v
      | none =>
        let (name, _) := read_identifier rest
        if name.length ≠ 0 then
          match (List.range 3).find?
              (fun i => match theme_name i with
                        | some nm => decide (nm.take name.length = name)
                        | none => false) with
          | some i => (i : Int)
          | none => -1
        else -1
    let theme2 := max (min theme 2) 0
    if theme2 ≠ st.current_theme then
      some { st with current_theme := theme2, window := { st.window with redraw := true } }
    else some st
  | none =>
  match skip_identifier data (str "close") with
  | some _ => if st.window.is_root then some st else none
  | none =>
    some { st with window :=
      display_error st.window (str "unknow command `" ++ data ++ str "`") }

/-- Commit of the minibar input (handle_minibar_enter, editor.c:1942-1977);
the input line is cleared at the end in every mode. -/
def handle_minibar_enter (st : EState) : Option EState :=
  let w := st.window
  let st2? : Option EState :=
    if w.minibar_mode = MinibarModeOpen then
      let r := open_file st.files st.disk w.minibar_data
      match r.2 with
      | some fi => some { st with files := r.1, window := change_file w fi }
      | none =>
        let msg := str "can not open file `" ++ w.minibar_data ++ str "`"
        some { st with files := r.1, window := display_error w msg }
    else if w.minibar_mode = MinibarModeNew then
      let r := create_file st.files w.minibar_data
      some { st with files := r.1, window := change_file w r.2 }
    else if w.minibar_mode = MinibarModeCommand then handle_command st
    else if w.minibar_mode = MinibarModeFind then
      some { st with window := { w with «matches» := [], redraw := true } }
    else some st
  st2?.map (fun st2 => { st2 with window := { st2.window with minibar_data := [] } })

/-- Keystroke dispatch while the minibar is active (minibar_handle_keypress,
editor.c:1981-2076).  The remove-multiple helper behind ctrl-delete is not
part of src/array.h; its effect follows §4.1 of the specification.  The
result is none only when the pane itself is removed by a close command. -/
def minibar_handle_keypress (st : EState) (keycode : Nat) : Option EState :=
  let w := st.window
  let st2? : Option EState :=
    if 32 ≤ keycode ∧ keycode ≤ 126 then
      let w2 := { w with
        minibar_data := w.minibar_data.take w.minibar_cursor ++ [keycode] ++
                        w.minibar_data.drop w.minibar_cursor,
        minibar_cursor := w.minibar_cursor + 1 }
      some { st with window :=
        if w2.minibar_mode = MinibarModeFind then find_in_file st.files w2 else w2 }
    else if keycode = KeyCodeEscape then
      let wrestored := { w with cursor_x := w.saved_cursor_x, cursor_y := w.saved_cursor_y,
                                «matches» := ([] : List (Nat × Nat)), redraw := true }
      some { st with window := exit_minibar_mode wrestored }
    else if keycode = KeyCodeLeft then
      some { st with window := { w with minibar_cursor := w.minibar_cursor - 1 } }
    else if keycode = KeyCodeUp then
      if w.minibar_mode = MinibarModeFind ∧ w.«matches».length ≠ 0 then
        let mi := w.match_index - 1
        let mi2 := if mi < 0 then (w.«matches».length : Int) - 1 else mi
        some { st with window := set_cursor_based_on_position { w with match_index := mi2 } }
      else some st
    else if keycode = KeyCodeDown then
      if w.minibar_mode = MinibarModeFind ∧ w.«matches».length ≠ 0 then
        let mi := w.match_index + 1
        let mi2 := if mi = (w.«matches».length : Int) then 0 else mi
        some { st with window := set_cursor_based_on_position { w with match_index := mi2 } }
      else some st
    else if keycode = KeyCodeCtrlDown then
      if w.minibar_mode = MinibarModeFind ∧ w.«matches».length ≠ 0 then
        let mi := w.match_index + (1 + (w.«matches».length : Int) / 50)
        let mi2 := if mi ≥ (w.«matches».length : Int) then mi - (w.«matches».length : Int) else mi
        some { st with window := set_cursor_based_on_position { w with match_index := mi2 } }
      else some st
    else if keycode = KeyCodeRight then
      some { st with window :=
        { w with minibar_cursor := min (w.minibar_cursor + 1) w.minibar_data.length } }
    else if keycode = KeyCodeHome then
      some { st with window := { w with minibar_cursor := 0 } }
    else if keycode = KeyCodeEnd then
      some { st with window := { w with minibar_cursor := w.minibar_data.length } }
    else if keycode = KeyCodeCtrlDelete ∨ keycode = KeyCodeDelete then
      let delete_count :=
        if keycode = KeyCodeCtrlDelete then
          get_delete_count w.minibar_data w.minibar_cursor true
        else 1
      if w.minibar_cursor ≠ 0 then
        let w2 := { w with
          minibar_data := w.minibar_data.take (w.minibar_cursor - delete_count) ++
                          w.minibar_data.drop w.minibar_cursor,
          minibar_cursor := w.minibar_cursor - delete_count }
        some { st with window :=
          if w2.minibar_mode = MinibarModeFind then find_in_file st.files w2 else w2 }
      else some st
    else if keycode = KeyCodeEnter then
      (handle_minibar_enter st).map
        (fun st2 => { st2 with window := exit_minibar_mode st2.window })
    else some st
  st2?.map (fun st2 =>
    if st2.window.file.isSome
    then { st2 with window := limit_window_cursor st2.files st2.window }
    else st2)

/-! ## Event traces over the minibar -/

/-- One user-visible minibar-related event: entering a minibar mode from the
editor (the four enter_minibar_mode call sites of editor_handle_keypress,
editor.c:1495-1509 and 1582-1613), or a keystroke dispatched to
minibar_handle_keypress. -/
inductive MEvent where
  | enter (mode : Nat)
  | key (keycode : Nat)
deriving DecidableEq

def mstep (st : EState) : MEvent → Option EState
  | .enter m => some { st with window := enter_minibar_mode st.window m }
  | .key k => minibar_handle_keypress st k

def mrun (st : EState) : List MEvent → Option EState
  | [] => some st
  | e :: es => (mstep st e).bind (fun st2 => mrun st2 es)

/-! ## Concrete fixtures used by counterexamples and witnesses -/

/-- Pane in its allocate_window state (calloc zeroes every field and the
redraw flag is set, editor.c:766-771), placed in a 120 by 40 root region. -/
def window0 : Window :=
  { file := none, file_states := [], redraw := true, offset_x := 0, offset_y := 0,
    cursor_x := 0, cursor_y := 0, cursor_x_ideal := 0, mark_valid := false,
    mark_x := 0, mark_y := 0, minibar_mode := 0, minibar_cursor := 0,
    minibar_offset := 0, minibar_active := false, minibar_data := [],
    error_present := false, error_message := [], «matches» := [], match_index := 0,
    match_length := 0, saved_cursor_x := 0, saved_cursor_y := 0,
    previous_keycode := 0, region_x := 0, region_y := 0, region_width := 120,
    region_height := 40, is_root := true }

/-- A saved one-line file holding the single byte `a`. -/
def fileA : FileM :=
  { path := [116], lines := [{ chars := [97], colors := [], redraw := false }],
    redraw := false, saved := true, hasHighlight := false }

/-- The pane of window0 viewing fileA at cursor (0, 0). -/
def windowA : Window := { window0 with file := some 0 }

/-- Freshly started process state: no files, empty disk, the zeroed pane. -/
def estate0 : EState :=
  { files := [], window := window0, disk := [], current_theme := 0 }

/-! ## Claim C2 -/

/-- Claim C2 (code bug): open-save-open is not the identity on line
contents even for an LF-only file.  The one-byte file `"a"` opens as the two
lines `["", "a"]` (open_file appends a fresh line for the tail after the
last LF instead of reusing the empty line it already created,
editor.c:940-944); saving writes `"\r\na"` and re-opening yields the three
lines `["", "", "a"]`. -/
theorem open_save_open_not_identity :
    open_file_lines [97] = some [[], [97]] ∧
    save_file_bytes [[], [97]] = [13, 10, 97] ∧
    open_file_lines [13, 10, 97] = some [[], [], [97]] ∧
    ([[], [], [97]] : List (List Nat)) ≠ [[], [97]] := by
  refine ⟨by decide, by decide, by decide, by decide⟩

/-! ## Claim C4 -/

/-- Claim C4 (counterexample): a read consisting of the bare ESC byte does
not decode to KeyCodeNone; it decodes to KeyCodeEscape (editor.c:687 keeps
`code = keys[0]` when no ESC-sequence branch fires). -/
theorem bare_escape_is_not_no_key :
    get_input [27] = KeyCodeEscape ∧ get_input [27] ≠ KeyCodeNone := by
  exact ⟨by decide, by decide⟩

/-- Helper for C4: whenever the decoder returns KeyCodeNone, either the
read was empty, or it was ESC-prefixed of length at least two without the
`ESC [ ...` shape of length at least three, or the first byte itself was
the out-of-band value 257. -/
theorem get_input_none_cases (keys : List Nat) (h : get_input keys = KeyCodeNone) :
    keys.length = 0 ∨
    (1 < keys.length ∧ ¬(2 < keys.length ∧ keys.getD 1 0 = 91)) ∨
    keys.getD 0 0 = KeyCodeNone := by
  unfold get_input at h
  by_cases hl : keys.length = 0
  · exact Or.inl hl
  · rw [if_neg hl] at h
    by_cases hcsi : keys.getD 0 0 = 27 ∧ 2 < keys.length ∧ keys.getD 1 0 = 91
    · rw [if_pos hcsi] at h
      exfalso
      have h27 := hcsi.1
      split at h
      · split at h <;> simp_all [KeyCodeUp, KeyCodeDown, KeyCodeLeft, KeyCodeRight,
          KeyCodeHome, KeyCodeShiftEnd, KeyCodeNone]
      · split at h
        · split at h
          · simp_all [KeyCodeEnd, KeyCodeNone]
          · split at h
            · simp_all [KeyCodeShiftHome, KeyCodeNone]
            · simp_all [KeyCodeNone]
        · split at h
          · split at h
            · split at h <;> simp_all [KeyCodeShiftUp, KeyCodeShiftDown,
                KeyCodeShiftLeft, KeyCodeShiftRight, KeyCodeNone]
            · split at h
              · split at h <;> simp_all [KeyCodeCtrlUp, KeyCodeCtrlDown,
                  KeyCodeCtrlLeft, KeyCodeCtrlRight, KeyCodeNone]
              · simp_all [KeyCodeNone]
          · simp_all [KeyCodeNone]
    · rw [if_neg hcsi] at h
      by_cases hesc : keys.getD 0 0 = 27 ∧ 1 < keys.length
      · exact Or.inr (Or.inl ⟨hesc.2, fun hc => hcsi ⟨hesc.1, hc⟩⟩)
      · rw [if_neg hesc] at h
        exact Or.inr (Or.inr h)

/-- Claim C4 (amended): a bare ESC decodes to KeyCodeEscape (not
KeyCodeNone), and an ESC-prefixed read decodes to KeyCodeNone exactly when
it has at least two bytes but does not have the `ESC [ ...` shape of at
least three bytes; in particular an unrecognized sequence of that CSI
shape keeps the initial `code = 27` and decodes to KeyCodeEscape. -/
theorem escape_prefix_decoding (keys : List Nat) (h0 : keys.getD 0 0 = 27)
    (hne : keys ≠ []) :
    (keys.length = 1 → get_input keys = KeyCodeEscape) ∧
    (get_input keys = KeyCodeNone ↔
      1 < keys.length ∧ ¬(2 < keys.length ∧ keys.getD 1 0 = 91)) := by
  have hlen : ¬keys.length = 0 := by simpa using hne
  constructor
  · intro h1
    unfold get_input
    rw [if_neg hlen, if_neg (by simp [h1]), if_neg (by simp [h1])]
    exact h0
  · constructor
    · intro h
      rcases get_input_none_cases keys h with hc | hc | hc
      · exact absurd hc hlen
      · exact hc
      · rw [h0] at hc; exact absurd hc (by simp [KeyCodeNone])
    · rintro ⟨h1, h2⟩
      unfold get_input
      rw [if_neg hlen, if_neg (fun hc => h2 hc.2), if_pos ⟨h0, h1⟩]

/-- Claim C4 witness: the amended theorem applied to the two-byte read
`ESC a`, which has no CSI shape and decodes to no key. -/
theorem escape_prefix_decoding_witness :
    (([27, 97] : List Nat).length = 1 → get_input [27, 97] = KeyCodeEscape) ∧
    (get_input [27, 97] = KeyCodeNone ↔
      1 < ([27, 97] : List Nat).length ∧
      ¬(2 < ([27, 97] : List Nat).length ∧ ([27, 97] : List Nat).getD 1 0 = 91)) :=
  escape_prefix_decoding [27, 97] (by decide) (by decide)

/-! ## Claim C8 -/

/-- Claim C8 (counterexample): pressing Delete at (0, 0) is not a complete
no-op — `file->saved = false` at editor.c:1268 runs unconditionally, so the
saved flag of a previously saved file is cleared. -/
theorem delete_at_origin_clears_saved_flag :
    (delete_character_or_word [fileA] windowA false).1 ≠ [fileA] ∧
    ((delete_character_or_word [fileA] windowA false).1.getD 0 default).saved = false ∧
    fileA.saved = true ∧
    (delete_character_or_word [fileA] windowA false).2 = windowA := by
  refine ⟨by decide, by decide, by decide, by decide⟩

/-- Claim C8 (amended): Delete at (0, 0) leaves the line contents, line
count, cursor, offsets and all pane state unchanged, and leaves the file
unchanged except that its saved flag is cleared. -/
theorem delete_at_origin_only_clears_saved (files : List FileM) (w : Window)
    (fi : Nat) (hf : w.file = some fi) (hx : w.cursor_x = 0) (hy : w.cursor_y = 0) :
    delete_character_or_word files w false =
      (files.set fi { getFile files fi with saved := false }, w) := by
  simp [delete_character_or_word, delete_character, get_delete_count, hf, hx, hy]

/-- Claim C8 witness: the amended theorem applied to the concrete saved
file. -/
theorem delete_at_origin_only_clears_saved_witness :
    delete_character_or_word [fileA] windowA false =
      ([fileA].set 0 { getFile [fileA] 0 with saved := false }, windowA) :=
  delete_at_origin_only_clears_saved [fileA] windowA 0 rfl rfl rfl

/-! ## Claim C5 -/

/-- Claim C5 (counterexample): the file `"a\r"` contains a CR that is not
immediately followed by LF (it is the last byte), yet open_file does not
reject it — the validation loop only rejects a byte other than LF and CR
seen after a CR (editor.c:910-915). -/
theorem trailing_cr_is_not_rejected :
    open_file_lines [97, 13] = some [[], [97]] ∧
    [97, 13].getD 1 0 = 13 ∧ ¬((97 : Nat) = 10) ∧ [97, 13].length = 2 := by
  refine ⟨by decide, by decide, by decide, by decide⟩

/-- A CR immediately followed by a byte that is neither LF nor CR. -/
def stray_cr (data : List Nat) : Prop :=
  ∃ l b r, data = l ++ [13, b] ++ r ∧ b ≠ 10 ∧ b ≠ 13

/-- Leading run of CRs followed directly by a byte that is neither LF nor
CR; this is what makes the validation loop reject when its CR flag is
already set on entry to the remaining input. -/
def leading_cr_bad (data : List Nat) : Prop :=
  ∃ k b r, data = List.replicate k 13 ++ b :: r ∧ b ≠ 10 ∧ b ≠ 13

theorem stray_cr_nil : ¬stray_cr [] := by
  rintro ⟨l, b, r, h, -, -⟩
  simp at h

theorem leading_cr_bad_nil : ¬leading_cr_bad [] := by
  rintro ⟨k, b, r, h, -, -⟩
  have := congrArg List.length h
  simp at this
  omega

theorem stray_cr_cons_ne {c : Nat} {rest : List Nat} (h : c ≠ 13) :
    stray_cr (c :: rest) ↔ stray_cr rest := by
  constructor
  · rintro ⟨l, b, r, he, hb10, hb13⟩
    cases l with
    | nil =>
      simp only [List.nil_append, List.cons_append] at he
      exact absurd (List.cons_eq_cons.mp he).1 h
    | cons c2 l2 =>
      simp only [List.cons_append, List.append_assoc] at he
      obtain ⟨-, he2⟩ := List.cons_eq_cons.mp he
      exact ⟨l2, b, r, by rw [he2]; simp, hb10, hb13⟩
  · rintro ⟨l, b, r, he, hb10, hb13⟩
    exact ⟨c :: l, b, r, by rw [he]; simp, hb10, hb13⟩

theorem stray_cr_cons13 {rest : List Nat} :
    stray_cr (13 :: rest) ↔
      (∃ b r, rest = b :: r ∧ b ≠ 10 ∧ b ≠ 13) ∨ stray_cr rest := by
  constructor
  · rintro ⟨l, b, r, he, hb10, hb13⟩
    cases l with
    | nil =>
      simp only [List.nil_append, List.cons_append] at he
      exact Or.inl ⟨b, r, (List.cons_eq_cons.mp he).2, hb10, hb13⟩
    | cons c2 l2 =>
      simp only [List.cons_append, List.append_assoc] at he
      obtain ⟨-, he2⟩ := List.cons_eq_cons.mp he
      exact Or.inr ⟨l2, b, r, by rw [he2]; simp, hb10, hb13⟩
  · rintro (⟨b, r, he, hb10, hb13⟩ | ⟨l, b, r, he, hb10, hb13⟩)
    · exact ⟨[], b, r, by rw [he]; rfl, hb10, hb13⟩
    · exact ⟨13 :: l, b, r, by rw [he]; simp, hb10, hb13⟩

theorem leading_cr_bad_cons13 {rest : List Nat} :
    leading_cr_bad (13 :: rest) ↔ leading_cr_bad rest := by
  constructor
  · rintro ⟨k, b, r, he, hb10, hb13⟩
    cases k with
    | zero =>
      simp only [List.replicate, List.nil_append] at he
      exact absurd (List.cons_eq_cons.mp he).1.symm hb13
    | succ k2 =>
      rw [List.replicate_succ, List.cons_append] at he
      exact ⟨k2, b, r, (List.cons_eq_cons.mp he).2, hb10, hb13⟩
  · rintro ⟨k, b, r, he, hb10, hb13⟩
    exact ⟨k + 1, b, r, by rw [List.replicate_succ, List.cons_append, he], hb10, hb13⟩

theorem leading_cr_bad_cons10 {rest : List Nat} : ¬leading_cr_bad (10 :: rest) := by
  rintro ⟨k, b, r, he, hb10, hb13⟩
  cases k with
  | zero =>
    simp only [List.replicate, List.nil_append] at he
    exact hb10 (List.cons_eq_cons.mp he).1.symm
  | succ k2 =>
    rw [List.replicate_succ, List.cons_append] at he
    simpa using (List.cons_eq_cons.mp he).1

theorem leading_cr_bad_of_head {b : Nat} {r : List Nat} (hb10 : b ≠ 10)
    (hb13 : b ≠ 13) : leading_cr_bad (b :: r) :=
  ⟨0, b, r, rfl, hb10, hb13⟩

theorem leading_cr_bad_elim {rest : List Nat} (h : leading_cr_bad rest) :
    (∃ b r, rest = b :: r ∧ b ≠ 10 ∧ b ≠ 13) ∨ stray_cr rest := by
  obtain ⟨k, b, r, he, hb10, hb13⟩ := h
  cases k with
  | zero => exact Or.inl ⟨b, r, by simpa using he, hb10, hb13⟩
  | succ k2 =>
    refine Or.inr ⟨List.replicate k2 13, b, r, ?_, hb10, hb13⟩
    rw [he, List.replicate_succ']
    simp

/-- Rejection characterization of the validation loop: with the CR flag
clear it rejects exactly the stray-CR inputs; with the flag set it also
rejects a leading CR run followed by a bad byte. -/
theorem crValidAux_false_iff : ∀ data : List Nat,
    (crValidAux data 0 = false ↔ stray_cr data) ∧
    (crValidAux data 1 = false ↔ (leading_cr_bad data ∨ stray_cr data)) := by
  intro data
  induction data with
  | nil => simp [crValidAux, stray_cr_nil, leading_cr_bad_nil]
  | cons b rest ih =>
    by_cases hb10 : b = 10
    · subst hb10
      constructor
      · rw [show crValidAux (10 :: rest) 0 = crValidAux rest 0 from rfl,
          stray_cr_cons_ne (by decide)]
        exact ih.1
      · rw [show crValidAux (10 :: rest) 1 = crValidAux rest 0 from rfl,
          stray_cr_cons_ne (by decide)]
        constructor
        · intro h; exact Or.inr (ih.1.mp h)
        · rintro (h | h)
          · exact absurd h leading_cr_bad_cons10
          · exact ih.1.mpr h
    · by_cases hb13 : b = 13
      · subst hb13
        have hstep0 : crValidAux (13 :: rest) 0 = crValidAux rest 1 := by
          simp [crValidAux]
        have hstep1 : crValidAux (13 :: rest) 1 = crValidAux rest 1 := by
          simp [crValidAux]
        constructor
        · rw [hstep0, stray_cr_cons13]
          rw [ih.2]
          constructor
          · rintro (h | h)
            · exact leading_cr_bad_elim h
            · exact Or.inr h
          · rintro (⟨b2, r2, he, h10, h13⟩ | h)
            · exact Or.inl (he ▸ leading_cr_bad_of_head h10 h13)
            · exact Or.inr h
        · rw [hstep1, leading_cr_bad_cons13, stray_cr_cons13]
          rw [ih.2]
          constructor
          · rintro (h | h)
            · rcases leading_cr_bad_elim h with h2 | h2
              · exact Or.inr (Or.inl h2)
              · exact Or.inr (Or.inr h2)
            · exact Or.inr (Or.inr h)
          · rintro (h | ⟨b2, r2, he, h10, h13⟩ | h)
            · exact Or.inl h
            · exact Or.inl (he ▸ leading_cr_bad_of_head h10 h13)
            · exact Or.inr h
      · have hstep0 : crValidAux (b :: rest) 0 = crValidAux rest 0 := by
          simp [crValidAux, hb10, hb13]
        have hstep1 : crValidAux (b :: rest) 1 = false := by
          simp [crValidAux, hb10, hb13]
        constructor
        · rw [hstep0, stray_cr_cons_ne hb13]
          exact ih.1
        · rw [hstep1, stray_cr_cons_ne hb13]
          simp [leading_cr_bad_of_head hb10 hb13]

/-- Claim C5 (amended): open_file rejects exactly the contents in which a
CR is immediately followed by a byte other than LF or CR (so a CR at end of
input or before another CR is tolerated); a rejected open adds no file —
the file list is returned unchanged with no handle; and contents whose
every CR is immediately followed by LF are never rejected. -/
theorem open_rejects_exactly_stray_cr (data : List Nat) (files : List FileM)
    (path : List Nat) (hnew : try_open_existing files path = none) :
    (crValid data = false ↔ stray_cr data) ∧
    (crValid data = false → open_file files [(path, data)] path = (files, none)) ∧
    ((∀ i, i < data.length → data.getD i 0 = 13 →
        i + 1 < data.length ∧ data.getD (i + 1) 0 = 10) →
      crValid data = true) := by
  refine ⟨(crValidAux_false_iff data).1, ?_, ?_⟩
  · intro h
    simp [open_file, hnew, List.find?, h]
  · intro h
    by_contra hc
    have hfalse : crValid data = false := by
      cases hv : crValid data
      · rfl
      · exact absurd hv hc
    obtain ⟨l, b, r, he, hb10, hb13⟩ := (crValidAux_false_iff data).1.mp hfalse
    rw [List.append_assoc] at he
    have hlen : l.length < data.length := by
      rw [he]; simp
    have h13 : data.getD l.length 0 = 13 := by
      rw [he, List.getD_append_right l ([13, b] ++ r) 0 l.length (le_refl _)]
      simp
    obtain ⟨-, h10⟩ := h l.length hlen h13
    rw [he, List.getD_append_right l ([13, b] ++ r) 0 (l.length + 1)
      (by omega : l.length ≤ l.length + 1)] at h10
    simp at h10
    exact hb10 h10

/-- Claim C5 witness: the amended theorem applied to the accepted file
`"a\r"` living at path `"t"` with no file open yet. -/
theorem open_rejects_exactly_stray_cr_witness :
    (crValid [97, 13] = false ↔ stray_cr [97, 13]) ∧
    (crValid [97, 13] = false → open_file [] [([116], [97, 13])] [116] = ([], none)) ∧
    ((∀ i, i < [97, 13].length → [97, 13].getD i 0 = 13 →
        i + 1 < [97, 13].length ∧ [97, 13].getD (i + 1) 0 = 10) →
      crValid [97, 13] = true) :=
  open_rejects_exactly_stray_cr [97, 13] [] [116] (by decide)

/-! ## Claim C6 -/

/-- Claim C6 (counterexample): on the line `"a "` with the cursor after the
space, ctrl-delete removes two bytes — the space run and the identifier run
before it — not just the one-byte space run the claim allows. -/
theorem ctrl_delete_takes_preceding_run :
    get_delete_count [97, 32] 2 true = 2 ∧ last_run_length [97, 32] 2 = 1 ∧
    ¬((2 : Nat) = 1) := by
  refine ⟨by decide, by decide, by decide⟩

theorem drop_takeWhile_length (p : Nat → Bool) :
    ∀ l : List Nat, l.drop ((l.takeWhile p).length) = l.dropWhile p
  | [] => rfl
  | b :: rest => by
    by_cases h : p b <;>
      simp [List.takeWhile_cons, List.dropWhile_cons, h, drop_takeWhile_length p rest]

theorem head?_dropWhile_false (p : Nat → Bool) :
    ∀ (l : List Nat) (b : Nat), (l.dropWhile p).head? = some b → p b = false
  | [], b => by simp
  | c :: rest, b => by
    by_cases h : p c
    · rw [List.dropWhile_cons, if_pos h]
      exact head?_dropWhile_false p rest b
    · rw [List.dropWhile_cons, if_neg h]
      intro hh
      cases hh
      simpa using h

theorem takeWhile_pos_head (p : Nat → Bool) (l : List Nat)
    (h : 0 < (l.takeWhile p).length) : ∃ c r, l = c :: r ∧ p c = true := by
  cases l with
  | nil => simp at h
  | cons c r =>
    by_cases hc : p c
    · exact ⟨c, r, rfl, hc⟩
    · rw [List.takeWhile_cons, if_neg hc] at h
      simp at h

/-- State of the counting loop of get_delete_count after processing a
prefix `w`, described from the end of the prefix: the trailing space run,
and — unless that run has reached length 3 — the identifier run and the
other-byte run that immediately precede it. -/
def del_spec_state (w : List Nat) : DelCounts :=
  { space_count := ((w.reverse).takeWhile (fun c => c = 32)).length
    char_count :=
      if 3 ≤ ((w.reverse).takeWhile (fun c => c = 32)).length then 0
      else (((w.reverse).drop ((w.reverse).takeWhile (fun c => c = 32)).length).takeWhile
             (fun c => is_indentifier_literal c)).length
    other_count :=
      if 3 ≤ ((w.reverse).takeWhile (fun c => c = 32)).length then 0
      else (((w.reverse).drop ((w.reverse).takeWhile (fun c => c = 32)).length).takeWhile
             (fun c => !is_indentifier_literal c && c ≠ 32)).length }

theorem takeWhile_space_cons_space (r : List Nat) :
    ((32 :: r).takeWhile (fun c => c = 32)) = 32 :: (r.takeWhile (fun c => c = 32)) := by
  rw [List.takeWhile_cons]
  simp

theorem takeWhile_space_cons_ne {b : Nat} (hb : ¬b = 32) (r : List Nat) :
    ((b :: r).takeWhile (fun c => c = 32)) = [] := by
  rw [List.takeWhile_cons]
  simp [hb]

theorem takeWhile_ident_cons_pos {b : Nat} (hid : is_indentifier_literal b = true)
    (r : List Nat) :
    ((b :: r).takeWhile (fun c => is_indentifier_literal c)) =
      b :: (r.takeWhile (fun c => is_indentifier_literal c)) := by
  rw [List.takeWhile_cons]
  simp [hid]

theorem takeWhile_ident_cons_neg {b : Nat} (hid : ¬is_indentifier_literal b = true)
    (r : List Nat) :
    ((b :: r).takeWhile (fun c => is_indentifier_literal c)) = [] := by
  rw [List.takeWhile_cons]
  simp [hid]

theorem takeWhile_other_cons_pos {b : Nat} (hid : ¬is_indentifier_literal b = true)
    (hb32 : ¬b = 32) (r : List Nat) :
    ((b :: r).takeWhile (fun c => !is_indentifier_literal c && c ≠ 32)) =
      b :: (r.takeWhile (fun c => !is_indentifier_literal c && c ≠ 32)) := by
  rw [List.takeWhile_cons]
  simp [hid, hb32]

theorem takeWhile_other_cons_neg {b : Nat}
    (h : is_indentifier_literal b = true ∨ b = 32) (r : List Nat) :
    ((b :: r).takeWhile (fun c => !is_indentifier_literal c && c ≠ 32)) = [] := by
  rw [List.takeWhile_cons]
  rcases h with h | h <;> simp [h]

theorem delete_count_step_space (s : DelCounts) :
    delete_count_step s 32 =
      ⟨s.space_count + 1, if s.space_count = 2 then 0 else s.char_count,
       if s.space_count = 2 then 0 else s.other_count⟩ := by
  simp [delete_count_step]

theorem delete_count_step_ident {b : Nat} (hb32 : ¬b = 32)
    (hid : is_indentifier_literal b = true) (s : DelCounts) :
    delete_count_step s b =
      ⟨0, (if s.space_count ≠ 0 then 0 else s.char_count) + 1, 0⟩ := by
  simp [delete_count_step, hb32, hid]

theorem delete_count_step_other {b : Nat} (hb32 : ¬b = 32)
    (hid : ¬is_indentifier_literal b = true) (s : DelCounts) :
    delete_count_step s b =
      ⟨0, 0, (if s.space_count ≠ 0 then 0 else s.other_count) + 1⟩ := by
  simp [delete_count_step, hb32, hid]

theorem del_spec_state_space (w : List Nat) :
    (del_spec_state w).space_count = ((w.reverse).takeWhile (fun c => c = 32)).length := rfl

theorem del_spec_state_char (w : List Nat) :
    (del_spec_state w).char_count =
      if 3 ≤ ((w.reverse).takeWhile (fun c => c = 32)).length then 0
      else (((w.reverse).drop ((w.reverse).takeWhile (fun c => c = 32)).length).takeWhile
             (fun c => is_indentifier_literal c)).length := rfl

theorem del_spec_state_other (w : List Nat) :
    (del_spec_state w).other_count =
      if 3 ≤ ((w.reverse).takeWhile (fun c => c = 32)).length then 0
      else (((w.reverse).drop ((w.reverse).takeWhile (fun c => c = 32)).length).takeWhile
             (fun c => !is_indentifier_literal c && c ≠ 32)).length := rfl

theorem del_spec_step (w : List Nat) (b : Nat) :
    delete_count_step (del_spec_state w) b = del_spec_state (w ++ [b]) := by
  have hrev : (w ++ [b]).reverse = b :: w.reverse := by simp
  have hid32 : is_indentifier_literal 32 = false := by decide
  by_cases hb32 : b = 32
  · subst hb32
    have hR : del_spec_state (w ++ [32]) =
        ⟨((w.reverse).takeWhile (fun c => c = 32)).length + 1,
         if 3 ≤ ((w.reverse).takeWhile (fun c => c = 32)).length + 1 then 0
         else (((w.reverse).drop ((w.reverse).takeWhile (fun c => c = 32)).length).takeWhile
                (fun c => is_indentifier_literal c)).length,
         if 3 ≤ ((w.reverse).takeWhile (fun c => c = 32)).length + 1 then 0
         else (((w.reverse).drop ((w.reverse).takeWhile (fun c => c = 32)).length).takeWhile
                (fun c => !is_indentifier_literal c && c ≠ 32)).length⟩ := by
      unfold del_spec_state
      rw [hrev, takeWhile_space_cons_space]
      simp only [List.length_cons, List.drop_succ_cons]
    rw [delete_count_step_space, hR, del_spec_state_space, del_spec_state_char,
      del_spec_state_other, DelCounts.mk.injEq]
    refine ⟨rfl, ?_, ?_⟩ <;> split_ifs <;> first | rfl | omega
  · by_cases hid : is_indentifier_literal b
    · have hR : del_spec_state (w ++ [b]) =
          ⟨0, ((w.reverse).takeWhile (fun c => is_indentifier_literal c)).length + 1, 0⟩ := by
        unfold del_spec_state
        rw [hrev, takeWhile_space_cons_ne hb32]
        simp only [List.length_nil, List.drop_zero]
        rw [takeWhile_ident_cons_pos hid, takeWhile_other_cons_neg (Or.inl hid)]
        simp only [List.length_cons, List.length_nil, if_neg (show ¬(3 : Nat) ≤ 0 by omega)]
      rw [delete_count_step_ident hb32 hid, hR, del_spec_state_space, del_spec_state_char,
        DelCounts.mk.injEq]
      refine ⟨rfl, ?_, rfl⟩
      by_cases hs0 : (w.reverse.takeWhile (fun c => c = 32)).length = 0
      · rw [if_neg (by simp [hs0]), if_neg (by omega :
          ¬3 ≤ ((w.reverse).takeWhile (fun c => c = 32)).length), hs0, List.drop_zero]
      · rw [if_pos hs0]
        obtain ⟨c, r2, hcr, hpc⟩ := takeWhile_pos_head _ _ (Nat.pos_of_ne_zero hs0)
        have hc32 : c = 32 := by simpa using hpc
        subst hc32
        rw [hcr, takeWhile_ident_cons_neg (by simp [hid32])]
        simp
    · have hR : del_spec_state (w ++ [b]) =
          ⟨0, 0, ((w.reverse).takeWhile (fun c => !is_indentifier_literal c && c ≠ 32)).length + 1⟩ := by
        unfold del_spec_state
        rw [hrev, takeWhile_space_cons_ne hb32]
        simp only [List.length_nil, List.drop_zero]
        rw [takeWhile_ident_cons_neg hid, takeWhile_other_cons_pos hid hb32]
        simp only [List.length_cons, List.length_nil, if_neg (show ¬(3 : Nat) ≤ 0 by omega)]
      rw [delete_count_step_other hb32 hid, hR, del_spec_state_space, del_spec_state_other,
        DelCounts.mk.injEq]
      refine ⟨rfl, rfl, ?_⟩
      by_cases hs0 : (w.reverse.takeWhile (fun c => c = 32)).length = 0
      · rw [if_neg (by simp [hs0]), if_neg (by omega :
          ¬3 ≤ ((w.reverse).takeWhile (fun c => c = 32)).length), hs0, List.drop_zero]
      · rw [if_pos hs0]
        obtain ⟨c, r2, hcr, hpc⟩ := takeWhile_pos_head _ _ (Nat.pos_of_ne_zero hs0)
        have hc32 : c = 32 := by simpa using hpc
        subst hc32
        rw [hcr, takeWhile_other_cons_neg (Or.inr rfl)]
        simp

theorem del_fold_spec (w : List Nat) :
    w.foldl delete_count_step ⟨0, 0, 0⟩ = del_spec_state w := by
  induction w using List.reverseRecOn with
  | nil => rfl
  | append_singleton w b ih =>
    rw [List.foldl_append, List.foldl_cons, List.foldl_nil, ih, del_spec_step]

theorem takeWhile_length_le (p : Nat → Bool) (l : List Nat) :
    (l.takeWhile p).length ≤ l.length := by
  induction l with
  | nil => simp
  | cons a l ih =>
    rw [List.takeWhile_cons]
    by_cases h : p a <;> simp [h] <;> omega

/-- The count computed for ctrl-delete never exceeds the cursor column. -/
theorem ctrl_delete_amended_le (data : List Nat) (cursor : Nat)
    (hc : cursor ≤ data.length) : ctrl_delete_amended data cursor ≤ cursor := by
  have hr : ((data.take cursor).reverse).length = cursor := by
    simp [List.length_take, min_eq_left hc]
  have hs : (((data.take cursor).reverse).takeWhile (fun c => c = 32)).length ≤ cursor := by
    have h := takeWhile_length_le (fun c => c = 32) ((data.take cursor).reverse)
    rw [hr] at h
    exact h
  unfold ctrl_delete_amended
  split_ifs with h3
  · exact hs
  · have h1 := takeWhile_length_le (fun c => is_indentifier_literal c)
      (((data.take cursor).reverse).drop
        (((data.take cursor).reverse).takeWhile (fun c => c = 32)).length)
    have h2 := takeWhile_length_le (fun c => !is_indentifier_literal c && c ≠ 32)
      (((data.take cursor).reverse).drop
        (((data.take cursor).reverse).takeWhile (fun c => c = 32)).length)
    have hdl : (((data.take cursor).reverse).drop
        (((data.take cursor).reverse).takeWhile (fun c => c = 32)).length).length =
        cursor - (((data.take cursor).reverse).takeWhile (fun c => c = 32)).length := by
      rw [List.length_drop, hr]
    rw [hdl] at h1 h2
    cases hh : ((((data.take cursor).reverse).drop
        (((data.take cursor).reverse).takeWhile (fun c => c = 32)).length)).head? with
    | none => simpa using hs
    | some hb =>
      dsimp only
      split_ifs <;> omega

/-- Claim C6's count equality: the ctrl-delete count of the code equals the
amended description. -/
theorem get_delete_count_ctrl_eq_amended (data : List Nat) (cursor : Nat)
    (h1 : 1 ≤ cursor) :
    get_delete_count data cursor true = ctrl_delete_amended data cursor := by
  unfold get_delete_count
  rw [if_neg (by omega), if_pos rfl]
  rw [del_fold_spec, del_spec_state_space, del_spec_state_char, del_spec_state_other]
  unfold ctrl_delete_amended
  by_cases h3 : 3 ≤ (((data.take cursor).reverse).takeWhile (fun c => c = 32)).length
  · rw [if_pos h3, if_pos h3, if_pos h3]
    omega
  · rw [if_neg h3, if_neg h3, if_neg h3]
    have hdw : ((data.take cursor).reverse).drop
        (((data.take cursor).reverse).takeWhile (fun c => c = 32)).length =
        ((data.take cursor).reverse).dropWhile (fun c => c = 32) :=
      drop_takeWhile_length _ _
    cases hh : (((data.take cursor).reverse).drop
        (((data.take cursor).reverse).takeWhile (fun c => c = 32)).length).head? with
    | none =>
      have hnil : ((data.take cursor).reverse).drop
          (((data.take cursor).reverse).takeWhile (fun c => c = 32)).length = [] := by
        cases hd : ((data.take cursor).reverse).drop
            (((data.take cursor).reverse).takeWhile (fun c => c = 32)).length with
        | nil => rfl
        | cons x xs => rw [hd] at hh; simp at hh
      rw [hnil]
      simp
    | some hb =>
      have hb32 : ¬hb = 32 := by
        have := head?_dropWhile_false (fun c => c = 32) ((data.take cursor).reverse) hb
          (hdw ▸ hh)
        simpa using this
      obtain ⟨rest2, hrest⟩ : ∃ rest2, ((data.take cursor).reverse).drop
          (((data.take cursor).reverse).takeWhile (fun c => c = 32)).length = hb :: rest2 := by
        cases hd : ((data.take cursor).reverse).drop
            (((data.take cursor).reverse).takeWhile (fun c => c = 32)).length with
        | nil => rw [hd] at hh; simp at hh
        | cons x xs =>
          rw [hd] at hh
          simp at hh
          exact ⟨xs, by rw [hh]⟩
      rw [hrest]
      by_cases hid : is_indentifier_literal hb
      · rw [takeWhile_ident_cons_pos hid, takeWhile_other_cons_neg (Or.inl hid)]
        simp [hid]
      · rw [takeWhile_ident_cons_neg hid, takeWhile_other_cons_pos hid hb32]
        simp [hid]

theorem render_line_chars (hl : Bool) (line : LineM) :
    (render_line hl line).chars = line.chars := by
  unfold render_line
  split_ifs <;> rfl

theorem getD_set_self {α : Type} [Inhabited α] (l : List α) (i : Nat) (a : α)
    (h : i < l.length) : (l.set i a).getD i default = a := by
  rw [List.getD_eq_getElem?_getD, List.getElem?_set_self]
  · rfl
  · exact h

theorem getFile_set_self (files : List FileM) (fi : Nat) (a : FileM)
    (h : fi < files.length) : getFile (files.set fi a) fi = a := by
  unfold getFile
  exact getD_set_self files fi a h

/-- Branch of delete_character with the cursor inside the line
(editor.c:1251-1255 followed by the unconditional editor.c:1268). -/
theorem delete_character_pos (files : List FileM) (w : Window) (fi : Nat) (c : Nat)
    (hf : w.file = some fi) (hx : w.cursor_x = (c : Int)) (hc : 1 ≤ c)
    (hfl : fi < files.length) :
    delete_character files w =
      (files.set fi
        { getFile files fi with
          lines := (getFile files fi).lines.set w.cursor_y.toNat
            (render_line (getFile files fi).hasHighlight
              { (getFile files fi).lines.getD w.cursor_y.toNat default with
                chars :=
                  ((getFile files fi).lines.getD w.cursor_y.toNat default).chars.take (c - 1) ++
                  ((getFile files fi).lines.getD w.cursor_y.toNat default).chars.drop c })
          saved := false },
       { w with cursor_x := w.cursor_x - 1, cursor_x_ideal := w.cursor_x - 1 }) := by
  have hx0 : w.cursor_x ≠ 0 := by
    rw [hx]
    exact_mod_cast Nat.pos_iff_ne_zero.mp hc
  have hxt : w.cursor_x.toNat = c := by rw [hx]; exact Int.toNat_natCast c
  unfold delete_character
  simp only [hf, Option.getD_some]
  rw [if_pos hx0]
  simp only [hxt]
  rw [getFile_set_self files fi _ hfl, List.set_set]

/-- Iterating delete_character `t` times with the cursor at column `c`
removes exactly the `t` bytes before the cursor. -/
theorem delete_iterate (fi : Nat) : ∀ (t : Nat) (files : List FileM) (w : Window) (c : Nat),
    w.file = some fi → fi < files.length →
    w.cursor_y.toNat < (getFile files fi).lines.length →
    w.cursor_x = (c : Int) → t ≤ c →
    c ≤ ((getFile files fi).lines.getD w.cursor_y.toNat default).chars.length →
    (((getFile ((fun st : List FileM × Window => delete_character st.1 st.2)^[t] (files, w)).1
        fi).lines.getD w.cursor_y.toNat default).chars =
      ((getFile files fi).lines.getD w.cursor_y.toNat default).chars.take (c - t) ++
      ((getFile files fi).lines.getD w.cursor_y.toNat default).chars.drop c) ∧
    ((fun st : List FileM × Window => delete_character st.1 st.2)^[t] (files, w)).2.cursor_x =
      ((c - t : Nat) : Int) ∧
    ((fun st : List FileM × Window => delete_character st.1 st.2)^[t] (files, w)).2.cursor_y =
      w.cursor_y := by
  intro t
  induction t with
  | zero =>
    intro files w c hf hfl hy hx ht hcl
    simp only [Function.iterate_zero_apply]
    exact ⟨by rw [Nat.sub_zero, List.take_append_drop], by rw [Nat.sub_zero, hx], by trivial⟩
  | succ t ih =>
    intro files w c hf hfl hy hx ht hcl
    rw [Function.iterate_succ_apply]
    have hstep := delete_character_pos files w fi c hf hx (by omega) hfl
    set O := ((getFile files fi).lines.getD w.cursor_y.toNat default).chars with hO
    have hO1 : (O.take (c - 1)).length = c - 1 := by
      rw [List.length_take]
      omega
    have hnext := ih
      (files.set fi
        { getFile files fi with
          lines := (getFile files fi).lines.set w.cursor_y.toNat
            (render_line (getFile files fi).hasHighlight
              { (getFile files fi).lines.getD w.cursor_y.toNat default with
                chars := O.take (c - 1) ++ O.drop c })
          saved := false })
      { w with cursor_x := w.cursor_x - 1, cursor_x_ideal := w.cursor_x - 1 }
      (c - 1) hf (by simpa using hfl) ?_ ?_ (by omega) ?_
    · rw [hstep]
      simp only at hnext
      have hgetD : (getFile (files.set fi
          { getFile files fi with
            lines := (getFile files fi).lines.set w.cursor_y.toNat
              (render_line (getFile files fi).hasHighlight
                { (getFile files fi).lines.getD w.cursor_y.toNat default with
                  chars := O.take (c - 1) ++ O.drop c })
            saved := false }) fi).lines.getD w.cursor_y.toNat default =
          render_line (getFile files fi).hasHighlight
            { (getFile files fi).lines.getD w.cursor_y.toNat default with
              chars := O.take (c - 1) ++ O.drop c } := by
        rw [getFile_set_self files fi _ hfl]
        exact getD_set_self _ _ _ (by simpa using hy)
      rw [hgetD, render_line_chars] at hnext
      simp only at hnext
      obtain ⟨hch, hcx, hcy⟩ := hnext
      refine ⟨?_, ?_, hcy⟩
      · rw [hch]
        rw [List.take_append_of_le_length (by omega), List.take_take,
          min_eq_left (by omega : c - 1 - t ≤ c - 1)]
        have hdrop : ((O.take (c - 1) ++ O.drop c).drop (c - 1)) = O.drop c := by
          have := List.drop_left (O.take (c - 1)) (O.drop c)
          rw [hO1] at this
          exact this
        rw [hdrop]
        have : c - 1 - t = c - (t + 1) := by omega
        rw [this]
      · rw [hcx]
        congr 1
        omega
    · rw [getFile_set_self files fi _ hfl]
      simpa using hy
    · simp only
      rw [hx]
      push_cast [Nat.cast_sub (by omega : 1 ≤ c)]
      ring
    · rw [getFile_set_self files fi _ hfl]
      rw [getD_set_self _ _ _ (by simpa using hy), render_line_chars]
      simp only [List.length_append, List.length_take, List.length_drop]
      omega

/-- Claim C6 (amended): ctrl-delete removes the whole run of spaces before
the cursor together with the whole identifier run or other-byte run
immediately preceding those spaces whenever the space run is shorter than
three (a missing space run counts as length zero, so the last run is
removed whole); with three or more spaces only the spaces are removed.  The
removed bytes are exactly the last `get_delete_count` bytes before the
cursor and nothing before them. -/
theorem ctrl_delete_removes_amended_runs (files : List FileM) (w : Window)
    (fi : Nat) (line : LineM) (c : Nat)
    (hf : w.file = some fi) (hfl : fi < files.length)
    (hline : (getFile files fi).lines.getD w.cursor_y.toNat default = line)
    (hx : w.cursor_x = (c : Int)) (h1 : 1 ≤ c)
    (hy : w.cursor_y.toNat < (getFile files fi).lines.length)
    (hcl : c ≤ line.chars.length) :
    get_delete_count line.chars c true = ctrl_delete_amended line.chars c ∧
    ((getFile (delete_character_or_word files w true).1 fi).lines.getD
        w.cursor_y.toNat default).chars =
      line.chars.take (c - get_delete_count line.chars c true) ++ line.chars.drop c ∧
    (delete_character_or_word files w true).2.cursor_x =
      ((c - get_delete_count line.chars c true : Nat) : Int) := by
  have hcount := get_delete_count_ctrl_eq_amended line.chars c h1
  have hle : get_delete_count line.chars c true ≤ c := by
    rw [hcount]
    exact ctrl_delete_amended_le _ _ hcl
  have hxt : w.cursor_x.toNat = c := by rw [hx]; exact Int.toNat_natCast c
  obtain ⟨ha, hb, -⟩ := delete_iterate fi (get_delete_count line.chars c true) files w c
    hf hfl hy hx hle (by rw [hline]; exact hcl)
  rw [hline] at ha
  refine ⟨hcount, ?_, ?_⟩
  · unfold delete_character_or_word
    simp only [hf, Option.getD_some, hline, hxt]
    exact ha
  · unfold delete_character_or_word
    simp only [hf, Option.getD_some, hline, hxt]
    exact hb

/-- A saved one-line file holding the two bytes `"a "`. -/
def fileAB : FileM :=
  { path := [116], lines := [{ chars := [97, 32], colors := [], redraw := false }],
    redraw := false, saved := true, hasHighlight := false }

/-- Pane viewing fileAB with the cursor after the space. -/
def windowAB : Window := { window0 with file := some 0, cursor_x := 2 }

/-- Claim C6 witness: the amended theorem applied to the `"a "` line with
the cursor at column 2. -/
theorem ctrl_delete_removes_amended_runs_witness :
    get_delete_count ([97, 32] : List Nat) 2 true = ctrl_delete_amended [97, 32] 2 ∧
    ((getFile (delete_character_or_word [fileAB] windowAB true).1 0).lines.getD
        windowAB.cursor_y.toNat default).chars =
      ([97, 32] : List Nat).take (2 - get_delete_count [97, 32] 2 true) ++
      ([97, 32] : List Nat).drop 2 ∧
    (delete_character_or_word [fileAB] windowAB true).2.cursor_x =
      ((2 - get_delete_count [97, 32] 2 true : Nat) : Int) :=
  ctrl_delete_removes_amended_runs [fileAB] windowAB 0
    { chars := [97, 32], colors := [], redraw := false } 2
    rfl (by decide) rfl rfl (by decide) (by decide) (by decide)

/-! ## Claim C3 -/

/-- Claim C3 (counterexample): for the pattern `"aaa"` and i = 2 the code
computes shift 1 (the first matching j = 1 is accepted through the
`|| !shift` clause even though P[0] = P[1]), while the claimed rule demands
the qualifying j = 0 at distance 2. -/
theorem good_suffix_differs_from_claimed :
    find_index_lookup [97, 97, 97] 2 = 1 ∧
    good_suffix_claimed [97, 97, 97] 2 = 2 ∧
    ¬((1 : Nat) = 2) := by
  refine ⟨by decide, by decide, by decide⟩

theorem range_succ_reverse (k : Nat) :
    (List.range (k + 1)).reverse = k :: (List.range k).reverse := by
  rw [List.range_succ, List.reverse_append]
  simp

theorem find?_append_match (p : Nat → Bool) : ∀ l₁ l₂ : List Nat,
    (l₁ ++ l₂).find? p =
      match l₁.find? p with | some x => some x | none => l₂.find? p
  | [], l₂ => rfl
  | a :: l₁, l₂ => by
    by_cases h : p a
    · rw [List.cons_append, List.find?_cons_of_pos _ h, List.find?_cons_of_pos _ h]
    · rw [List.cons_append, List.find?_cons_of_neg _ h, List.find?_cons_of_neg _ h]
      exact find?_append_match p l₁ l₂

theorem find?_cons_eq (p : Nat → Bool) (a : Nat) (l : List Nat) :
    List.find? p (a :: l) = if p a then some a else List.find? p l := by
  cases hp : p a <;> simp [List.find?, hp]

theorem good_suffix_step_pos (P : List Nat) (i a j : Nat) (ha : a ≠ 0) :
    good_suffix_step P i a j =
      if (decide (j ≠ 0) && suffix_match P i j &&
          decide (P.getD j 0 ≠ P.getD (i - 1) 0)) = true
      then i - j else a := by
  unfold good_suffix_step
  by_cases h1 : (suffix_match P i j) = true <;>
    by_cases h2 : j = 0 <;>
      by_cases h3 : P.getD j 0 = P.getD (i - 1) 0 <;>
        simp [h1, h2, h3, ha]

theorem good_suffix_step_zero (P : List Nat) (i j : Nat) :
    good_suffix_step P i 0 j =
      if (suffix_match P i j) = true then i - j else 0 := by
  unfold good_suffix_step
  by_cases h1 : (suffix_match P i j) = true <;> simp [h1]

theorem good_suffix_fold_pos (P : List Nat) (i : Nat) : ∀ (k : Nat) (a : Nat), a ≠ 0 → k ≤ i →
    ((List.range k).reverse).foldl (good_suffix_step P i) a =
      (match (List.range k).find?
          (fun j => decide (j ≠ 0) && suffix_match P i j &&
            decide (P.getD j 0 ≠ P.getD (i - 1) 0)) with
       | some j => i - j
       | none => a) := by
  intro k
  induction k with
  | zero => intro a ha _; rfl
  | succ k ih =>
    intro a ha hk
    rw [range_succ_reverse, List.foldl_cons, List.range_succ,
      find?_append_match]
    by_cases hA : (decide (k ≠ 0) && suffix_match P i k &&
        decide (P.getD k 0 ≠ P.getD (i - 1) 0)) = true
    · rw [good_suffix_step_pos P i a k ha, if_pos hA,
        ih (i - k) (by omega) (by omega)]
      cases hfind : (List.range k).find?
          (fun j => decide (j ≠ 0) && suffix_match P i j &&
            decide (P.getD j 0 ≠ P.getD (i - 1) 0)) with
      | none =>
        simp only
        rw [find?_cons_eq, if_pos hA]
      | some j => simp
    · rw [good_suffix_step_pos P i a k ha, if_neg hA,
        ih a ha (by omega)]
      cases hfind : (List.range k).find?
          (fun j => decide (j ≠ 0) && suffix_match P i j &&
            decide (P.getD j 0 ≠ P.getD (i - 1) 0)) with
      | none =>
        simp only
        rw [find?_cons_eq, if_neg hA]
        rfl
      | some j => simp

theorem good_suffix_fold_zero (P : List Nat) (i : Nat) : ∀ (k : Nat), k ≤ i →
    ((List.range k).reverse).foldl (good_suffix_step P i) 0 =
      (match (List.range k).find?
          (fun j => decide (j ≠ 0) && suffix_match P i j &&
            decide (P.getD j 0 ≠ P.getD (i - 1) 0)) with
       | some j => i - j
       | none =>
         match ((List.range k).reverse).find? (fun j => suffix_match P i j) with
         | some j => i - j
         | none => 0) := by
  intro k
  induction k with
  | zero => intro _; rfl
  | succ k ih =>
    intro hk
    rw [range_succ_reverse, List.foldl_cons]
    by_cases hS : (suffix_match P i k) = true
    · rw [good_suffix_step_zero, if_pos hS,
        good_suffix_fold_pos P i k (i - k) (by omega) (by omega)]
      rw [List.range_succ, find?_append_match]
      cases hfind : (List.range k).find?
          (fun j => decide (j ≠ 0) && suffix_match P i j &&
            decide (P.getD j 0 ≠ P.getD (i - 1) 0)) with
      | some j => simp
      | none =>
        simp only
        rw [find?_cons_eq]
        by_cases hA : (decide (k ≠ 0) && suffix_match P i k &&
            decide (P.getD k 0 ≠ P.getD (i - 1) 0)) = true
        · rw [if_pos hA]
        · rw [if_neg hA]
          rw [find?_cons_eq, if_pos hS]
          rfl
    · have hA : ¬(decide (k ≠ 0) && suffix_match P i k &&
          decide (P.getD k 0 ≠ P.getD (i - 1) 0)) = true := by
        simp only [Bool.and_eq_true, not_and]
        intro hpre
        exact absurd hpre.2 (by simp [hS])
      rw [good_suffix_step_zero, if_neg hS, ih (by omega)]
      rw [List.range_succ, find?_append_match]
      cases hfind : (List.range k).find?
          (fun j => decide (j ≠ 0) && suffix_match P i j &&
            decide (P.getD j 0 ≠ P.getD (i - 1) 0)) with
      | some j => simp
      | none =>
        simp only
        rw [find?_cons_eq, if_neg hA, find?_cons_eq, if_neg (by simp [hS])]
        rfl

/-- Claim C3 (amended): the good-suffix entry equals the distance `i - j`
to the smallest `j ≥ 1` with a suffix match at `j` and `P[j] ≠ P[i-1]`
(note: `P[j]`, not the claimed `P[j-1]`); when no such `j` exists it equals
the distance to the largest matching `j` of any kind, and 1 when nothing
matches. -/
theorem good_suffix_entry_amended (P : List Nat) (i : Nat) (h1 : 1 ≤ i)
    (h2 : i < P.length) : find_index_lookup P i = good_suffix_amended P i := by
  unfold find_index_lookup good_suffix_amended
  rw [good_suffix_fold_zero P i i (le_refl i)]
  cases hfind : (List.range i).find?
      (fun j => decide (j ≠ 0) && suffix_match P i j &&
        decide (P.getD j 0 ≠ P.getD (i - 1) 0)) with
  | some j =>
    have hj : j < i := by
      have := List.mem_range.mp (List.mem_of_find?_eq_some hfind)
      omega
    simp only
    rw [if_neg (by omega : ¬i - j = 0)]
  | none =>
    simp only
    cases hfindS : ((List.range i).reverse).find? (fun j => suffix_match P i j) with
    | some j =>
      have hj : j < i := by
        have := List.mem_of_find?_eq_some hfindS
        rw [List.mem_reverse] at this
        have := List.mem_range.mp this
        omega
      simp only
      rw [if_neg (by omega : ¬i - j = 0)]
    | none => rfl

/-- Claim C3 witness: the amended theorem evaluated on the pattern `"aaa"`
at i = 2. -/
theorem good_suffix_entry_amended_witness :
    find_index_lookup [97, 97, 97] 2 = good_suffix_amended [97, 97, 97] 2 :=
  good_suffix_entry_amended [97, 97, 97] 2 (by decide) (by decide)

/-! ## Claim C9: termination of the Boyer-Moore scan -/

theorem find_char_fold_zero (word : List Nat) (c : Nat) :
    ∀ (n a : Nat),
      (List.range n).foldl
        (fun acc i => if word.getD i 0 = c then word.length - i - 1 else acc) a = 0 →
      a = 0 ∨ ∃ i, i < n ∧ word.getD i 0 = c ∧ word.length - i - 1 = 0 := by
  intro n
  induction n with
  | zero => intro a h; left; simpa using h
  | succ n ih =>
    intro a h
    rw [List.range_succ, List.foldl_append, List.foldl_cons, List.foldl_nil] at h
    by_cases hc : word.getD n 0 = c
    · rw [if_pos hc] at h
      exact Or.inr ⟨n, Nat.lt_succ_self n, hc, h⟩
    · rw [if_neg hc] at h
      rcases ih a h with h0 | ⟨i, hi, hci, hzi⟩
      · exact Or.inl h0
      · exact Or.inr ⟨i, Nat.lt_succ_of_lt hi, hci, hzi⟩

theorem find_char_lookup_zero (word : List Nat) (c : Nat) (hw : word ≠ [])
    (h : find_char_lookup word c = 0) : word.getD (word.length - 1) 0 = c := by
  unfold find_char_lookup at h
  rcases find_char_fold_zero word c word.length word.length h with h0 | ⟨i, hi, hci, hzi⟩
  · exact absurd (List.length_eq_zero.mp h0) hw
  · have hieq : i = word.length - 1 := by omega
    rw [← hieq]
    exact hci

theorem backMatch_zero_ne (word data : List Nat) (di : Nat) (hw : word ≠ [])
    (hdi : di < data.length) (h : backMatch word data di = 0) :
    data.getD di 0 ≠ word.getD (word.length - 1) 0 := by
  unfold backMatch at h
  cases hwr : word.reverse with
  | nil => exact absurd (List.reverse_eq_nil_iff.mp hwr) hw
  | cons a as =>
    have htlen : (data.take (di + 1)).length = di + 1 := by
      rw [List.length_take]; omega
    cases htr : (data.take (di + 1)).reverse with
    | nil =>
      rw [List.reverse_eq_nil_iff.mp htr] at htlen
      simp at htlen
    | cons b bs =>
      rw [hwr, htr] at h
      have hab : a ≠ b := by
        intro hab
        simp only [commonPrefixLen, if_pos hab] at h
        omega
      have ha : word.getD (word.length - 1) 0 = a := by
        have h1 : word.getLast? = some a := by rw [← List.head?_reverse, hwr]; rfl
        rw [List.getLast?_eq_getElem?] at h1
        rw [List.getD_eq_getElem?_getD, h1]
        rfl
      have hb : data.getD di 0 = b := by
        have h1 : (data.take (di + 1)).getLast? = some b := by
          rw [← List.head?_reverse, htr]; rfl
        rw [List.getLast?_eq_getElem?, htlen, Nat.add_sub_cancel] at h1
        have h2 : (data.take (di + 1))[di]? = data[di]? := by
          rw [List.getElem?_take, if_pos (by omega)]
        rw [h2] at h1
        rw [List.getD_eq_getElem?_getD, h1]
        rfl
      rw [ha, hb]
      exact fun hba => hab hba.symm

theorem find_index_lookup_pos (P : List Nat) (i : Nat) : 1 ≤ find_index_lookup P i := by
  simp only [find_index_lookup]
  split <;> omega

theorem find_skip_pos (word data : List Nat) (di : Nat) (hw : word ≠ [])
    (hdi : di < data.length) :
    1 ≤ find_skip word data di (backMatch word data di) := by
  unfold find_skip
  by_cases hk : 0 < backMatch word data di
  · rw [if_pos hk]
    exact find_index_lookup_pos word (backMatch word data di)
  · rw [if_neg hk]
    have h0 : backMatch word data di = 0 := by omega
    have hne := backMatch_zero_ne word data di hw hdi h0
    by_contra hlt
    have hz : find_char_lookup word (data.getD di 0) = 0 := by omega
    exact hne (find_char_lookup_zero word (data.getD di 0) hw hz).symm

theorem find_step_match (word data : List Nat) (di : Nat)
    (h : backMatch word data di = word.length) :
    find_step word data di = (di + 1, some (di + 1 - word.length)) := by
  simp only [find_step]
  rw [if_pos h]

theorem find_step_miss (word data : List Nat) (di : Nat)
    (h : ¬backMatch word data di = word.length) :
    find_step word data di =
      (di + find_skip word data di (backMatch word data di), none) := by
  simp only [find_step]
  rw [if_neg h]

theorem find_step_advance (word data : List Nat) (di : Nat) (hw : word ≠ [])
    (hdi : di < data.length) : di < (find_step word data di).1 := by
  by_cases h : backMatch word data di = word.length
  · rw [find_step_match word data di h]
    exact Nat.lt_succ_self di
  · rw [find_step_miss word data di h]
    have h1 := find_skip_pos word data di hw hdi
    show di < di + find_skip word data di (backMatch word data di)
    omega

theorem findLoop_isSome_of_le (word data : List Nat) (hw : word ≠ []) :
    ∀ (fuel di : Nat) (acc : List Nat), data.length ≤ di + fuel →
      (findLoop word data fuel di acc).isSome = true := by
  intro fuel
  induction fuel with
  | zero =>
    intro di acc h
    unfold findLoop
    rw [if_neg (by omega : ¬di < data.length)]
    rfl
  | succ n ih =>
    intro di acc h
    unfold findLoop
    by_cases hdi : di < data.length
    · rw [if_pos hdi]
      by_cases hm : backMatch word data di = word.length
      · rw [find_step_match word data di hm]
        exact ih (di + 1) (acc ++ [di + 1 - word.length]) (by omega)
      · rw [find_step_miss word data di hm]
        have hs := find_skip_pos word data di hw hdi
        exact ih (di + find_skip word data di (backMatch word data di)) acc (by omega)
    · rw [if_neg hdi]
      rfl

/-- Claim C9 (confirmed): for a non-empty pattern over an ASCII line the
Boyer-Moore scan of `find` terminates: every outer iteration strictly
advances the scan index (a full match advances past the match, a mismatch
advances by a table entry that is at least 1), so the loop with
`data.length + 1` iterations of fuel always completes. -/
theorem find_scan_advances_and_terminates (word data : List Nat) (hw : word ≠ [])
    (hascii : ∀ b ∈ data, b ≤ 127) :
    (∀ di, di < data.length → di < (find_step word data di).1) ∧
    (findLoop word data (data.length + 1) (word.length - 1) []).isSome = true := by
  refine ⟨fun di hdi => find_step_advance word data di hw hdi, ?_⟩
  exact findLoop_isSome_of_le word data hw (data.length + 1) (word.length - 1) [] (by omega)

/-- Claim C9 witness: the termination theorem applied to the pattern `"aa"`
and the line `"baa"`. -/
theorem find_scan_advances_and_terminates_witness :
    (∀ di, di < ([98, 97, 97] : List Nat).length →
        di < (find_step [97, 97] [98, 97, 97] di).1) ∧
    (findLoop [97, 97] [98, 97, 97] (([98, 97, 97] : List Nat).length + 1)
        (([97, 97] : List Nat).length - 1) []).isSome = true :=
  find_scan_advances_and_terminates [97, 97] [98, 97, 97] (by decide) (by decide)

/-! ## Claim C1: soundness and ordering of the match list -/

theorem commonPrefixLen_le_right :
    ∀ (a b : List Nat), commonPrefixLen a b ≤ b.length := by
  intro a
  induction a with
  | nil =>
    intro b
    have h : commonPrefixLen [] b = 0 := rfl
    omega
  | cons x xs ih =>
    intro b
    cases b with
    | nil =>
      have h : commonPrefixLen (x :: xs) [] = 0 := rfl
      omega
    | cons y ys =>
      by_cases hxy : x = y
      · have h : commonPrefixLen (x :: xs) (y :: ys) = commonPrefixLen xs ys + 1 := by
          simp only [commonPrefixLen, if_pos hxy]
        have h2 := ih ys
        rw [h, List.length_cons]
        omega
      · have h : commonPrefixLen (x :: xs) (y :: ys) = 0 := by
          simp only [commonPrefixLen, if_neg hxy]
        omega

theorem commonPrefixLen_eq_length_prefix :
    ∀ (a b : List Nat), commonPrefixLen a b = a.length → a <+: b := by
  intro a
  induction a with
  | nil => intro b _; exact List.nil_prefix
  | cons x xs ih =>
    intro b h
    cases b with
    | nil =>
      have h0 : commonPrefixLen (x :: xs) [] = 0 := rfl
      rw [h0, List.length_cons] at h
      omega
    | cons y ys =>
      by_cases hxy : x = y
      · subst hxy
        have h1 : commonPrefixLen xs ys = xs.length := by
          have he : commonPrefixLen (x :: xs) (x :: ys) = commonPrefixLen xs ys + 1 := by
            simp [commonPrefixLen]
          rw [he, List.length_cons] at h
          omega
        obtain ⟨t, ht⟩ := ih ys h1
        exact ⟨t, by rw [List.cons_append, ht]⟩
      · simp only [commonPrefixLen, if_neg hxy, List.length_cons] at h
        omega

theorem backMatch_full (word data : List Nat) (di : Nat)
    (hdi : di < data.length) (h : backMatch word data di = word.length) :
    word.length ≤ di + 1 ∧
      (data.drop (di + 1 - word.length)).take word.length = word := by
  unfold backMatch at h
  have hpre : word.reverse <+: (data.take (di + 1)).reverse := by
    apply commonPrefixLen_eq_length_prefix
    rw [List.length_reverse]
    exact h
  have hsuf : word <:+ data.take (di + 1) := List.reverse_prefix.mp hpre
  have hlen1 : word.length ≤ di + 1 := by
    have hle := commonPrefixLen_le_right word.reverse (data.take (di + 1)).reverse
    rw [h, List.length_reverse, List.length_take] at hle
    omega
  refine ⟨hlen1, ?_⟩
  obtain ⟨pre, hpre2⟩ := hsuf
  have hplen : pre.length = di + 1 - word.length := by
    have hl := congrArg List.length hpre2
    rw [List.length_append, List.length_take] at hl
    omega
  have h1 : (data.take (di + 1)).drop (di + 1 - word.length) = word := by
    rw [← hpre2, ← hplen, List.drop_left]
  have h2 : (data.take (di + 1)).drop (di + 1 - word.length) =
      (data.drop (di + 1 - word.length)).take (di + 1 - (di + 1 - word.length)) :=
    List.drop_take (di + 1) (di + 1 - word.length) data
  have h3 : di + 1 - (di + 1 - word.length) = word.length := by omega
  rw [h2, h3] at h1
  exact h1

theorem findLoop_invariant (word data : List Nat) :
    ∀ (fuel di : Nat) (acc res : List Nat),
      findLoop word data fuel di acc = some res →
      (∀ x ∈ acc, (data.drop x).take word.length = word) →
      acc.Pairwise (fun a b => a < b) →
      (∀ x ∈ acc, x + word.length ≤ di) →
      (∀ x ∈ res, (data.drop x).take word.length = word) ∧
        res.Pairwise (fun a b => a < b) := by
  intro fuel
  induction fuel with
  | zero =>
    intro di acc res hrun hs hp hb
    unfold findLoop at hrun
    by_cases hdi : di < data.length
    · rw [if_pos hdi] at hrun
      exact absurd hrun (by simp)
    · rw [if_neg hdi] at hrun
      injection hrun with h
      subst h
      exact ⟨hs, hp⟩
  | succ n ih =>
    intro di acc res hrun hs hp hb
    unfold findLoop at hrun
    by_cases hdi : di < data.length
    · rw [if_pos hdi] at hrun
      by_cases hm : backMatch word data di = word.length
      · rw [find_step_match word data di hm] at hrun
        have hrun2 : findLoop word data n (di + 1)
            (acc ++ [di + 1 - word.length]) = some res := hrun
        have hfull := backMatch_full word data di hdi hm
        apply ih (di + 1) (acc ++ [di + 1 - word.length]) res hrun2
        · intro x hx
          rcases List.mem_append.mp hx with hx1 | hx2
          · exact hs x hx1
          · have hxe : x = di + 1 - word.length := by simpa using hx2
            rw [hxe]
            exact hfull.2
        · rw [List.pairwise_append]
          refine ⟨hp, List.pairwise_singleton _ _, ?_⟩
          intro a ha b hb2
          have hbe : b = di + 1 - word.length := by simpa using hb2
          have hba := hb a ha
          omega
        · intro x hx
          rcases List.mem_append.mp hx with hx1 | hx2
          · have := hb x hx1
            omega
          · have hxe : x = di + 1 - word.length := by simpa using hx2
            have := hfull.1
            omega
      · rw [find_step_miss word data di hm] at hrun
        have hrun2 : findLoop word data n
            (di + find_skip word data di (backMatch word data di)) acc = some res := hrun
        apply ih _ acc res hrun2 hs hp
        intro x hx
        have := hb x hx
        omega
    · rw [if_neg hdi] at hrun
      injection hrun with h
      subst h
      exact ⟨hs, hp⟩

theorem find_matches_spec (word data : List Nat) :
    (∀ x ∈ find_matches word data, (data.drop x).take word.length = word) ∧
      (find_matches word data).Pairwise (fun a b => a < b) := by
  unfold find_matches
  cases hrun : findLoop word data (data.length + 1) (word.length - 1) [] with
  | none => simp
  | some res =>
    simp only [Option.getD_some]
    exact findLoop_invariant word data (data.length + 1) (word.length - 1) [] res hrun
      (by simp) (by simp) (by simp)

theorem find_in_file_sound (pattern : List Nat) (lines : List (List Nat)) :
    ∀ e ∈ find_in_file_matches pattern lines,
      ((lines.getD e.2 []).drop e.1).take pattern.length = pattern := by
  intro e he
  unfold find_in_file_matches at he
  by_cases hp : pattern.length = 0
  · rw [if_pos hp] at he
    simp at he
  · rw [if_neg hp] at he
    obtain ⟨p, hpmem, hpe⟩ := List.mem_flatMap.mp he
    obtain ⟨x, hx, hxe⟩ := List.mem_map.mp hpe
    have hget : lines[p.1]? = some p.2 := List.mem_enum_iff_getElem?.mp hpmem
    have hgetD : lines.getD p.1 [] = p.2 := by
      rw [List.getD_eq_getElem?_getD, hget]
      rfl
    have hsound := (find_matches_spec pattern p.2).1 x hx
    rw [← hxe]
    show ((lines.getD p.1 []).drop x).take pattern.length = pattern
    rw [hgetD]
    exact hsound

theorem find_in_file_pairwise_from (pattern : List Nat) :
    ∀ (lines : List (List Nat)) (n : Nat),
      ((lines.enumFrom n).flatMap
          (fun p => (find_matches pattern p.2).map (fun x => (x, p.1)))).Pairwise
        (fun a b : Nat × Nat => a.2 < b.2 ∨ (a.2 = b.2 ∧ a.1 < b.1)) := by
  intro lines
  induction lines with
  | nil => intro n; simp
  | cons l ls ih =>
    intro n
    rw [List.enumFrom_cons, List.flatMap_cons, List.pairwise_append]
    refine ⟨?_, ih (n + 1), ?_⟩
    · exact List.Pairwise.map (fun x => (x, n))
        (fun a b hab => Or.inr ⟨rfl, hab⟩) (find_matches_spec pattern l).2
    · intro a ha b hb
      have ha2 : a.2 = n := by
        obtain ⟨x, _, hxe⟩ := List.mem_map.mp ha
        rw [← hxe]
      have hb2 : n + 1 ≤ b.2 := by
        obtain ⟨p, hp, hbp⟩ := List.mem_flatMap.mp hb
        obtain ⟨x, _, hxe⟩ := List.mem_map.mp hbp
        have hple : n + 1 ≤ p.1 :=
          (List.mk_mem_enumFrom_iff_le_and_getElem?_sub.mp
            (show (p.1, p.2) ∈ ls.enumFrom (n + 1) by simpa using hp)).1
        rw [← hxe]
        exact hple
      exact Or.inl (by omega)

/-- Claim C1 (confirmed): for a non-empty pattern, every entry `(x, y)` of
the match list built by find_in_file denotes a position where the slice of
line `y` starting at column `x` equals the pattern, and the list is
line-major: line numbers ascend, and within one line columns strictly
ascend. -/
theorem find_matches_correct_ordered (pattern : List Nat) (lines : List (List Nat))
    (hp : pattern ≠ []) :
    (∀ e ∈ find_in_file_matches pattern lines,
        ((lines.getD e.2 []).drop e.1).take pattern.length = pattern) ∧
    (find_in_file_matches pattern lines).Pairwise
      (fun a b : Nat × Nat => a.2 < b.2 ∨ (a.2 = b.2 ∧ a.1 < b.1)) := by
  refine ⟨find_in_file_sound pattern lines, ?_⟩
  unfold find_in_file_matches
  rw [if_neg (by simpa using hp : ¬pattern.length = 0)]
  exact find_in_file_pairwise_from pattern lines 0

/-- Claim C1 witness: the theorem applied to the pattern `"a"` and the two
lines `"a"` and `"ba"`. -/
theorem find_matches_correct_ordered_witness :
    (∀ e ∈ find_in_file_matches [97] [[97], [98, 97]],
        (([[97], [98, 97]].getD e.2 []).drop e.1).take ([97] : List Nat).length = [97]) ∧
    (find_in_file_matches [97] [[97], [98, 97]]).Pairwise
      (fun a b : Nat × Nat => a.2 < b.2 ∨ (a.2 = b.2 ∧ a.1 < b.1)) :=
  find_matches_correct_ordered [97] [[97], [98, 97]] (by decide)

/-! ## Claim C7: region traversal visits every leaf in order -/

theorem leafPaths_node (l r : RTree) :
    leafPaths (RTree.node l r) =
      (leafPaths l).map (fun p => false :: p) ++
        (leafPaths r).map (fun p => true :: p) := rfl

theorem leafPaths_node_length (l r : RTree) :
    (leafPaths (RTree.node l r)).length =
      (leafPaths l).length + (leafPaths r).length := by
  rw [leafPaths_node, List.length_append, List.length_map, List.length_map]

theorem leafPaths_length_pos (t : RTree) : 0 < (leafPaths t).length := by
  induction t with
  | leaf v => exact Nat.zero_lt_one
  | node l r ihl ihr =>
    rw [leafPaths_node_length]
    omega

theorem recurse_right_all_true (t : RTree) : ∀ b ∈ recurse_right t, b = true := by
  induction t with
  | leaf v => intro b hb; simp [recurse_right] at hb
  | node l r ihl ihr =>
    intro b hb
    simp only [recurse_right, List.mem_cons] at hb
    rcases hb with hb | hb
    · exact hb
    · exact ihr b hb

theorem recurse_left_all_false (t : RTree) : ∀ b ∈ recurse_left t, b = false := by
  induction t with
  | leaf v => intro b hb; simp [recurse_left] at hb
  | node l r ihl ihr =>
    intro b hb
    simp only [recurse_left, List.mem_cons] at hb
    rcases hb with hb | hb
    · exact hb
    · exact ihl b hb

theorem getD_map_cons (b : Bool) (L : List (List Bool)) (i : Nat) (h : i < L.length) :
    (L.map (fun p => b :: p)).getD i [] = b :: L.getD i [] := by
  rw [List.getD_eq_getElem?_getD, List.getElem?_map, List.getElem?_eq_getElem h,
      List.getD_eq_getElem?_getD, List.getElem?_eq_getElem h]
  rfl

theorem getD_node_left (l r : RTree) (i : Nat) (h : i < (leafPaths l).length) :
    (leafPaths (RTree.node l r)).getD i [] = false :: (leafPaths l).getD i [] := by
  rw [leafPaths_node]
  rw [List.getD_append _ _ [] i (by rw [List.length_map]; exact h)]
  exact getD_map_cons false (leafPaths l) i h

theorem getD_node_right (l r : RTree) (i : Nat) (h1 : (leafPaths l).length ≤ i)
    (h2 : i - (leafPaths l).length < (leafPaths r).length) :
    (leafPaths (RTree.node l r)).getD i [] =
      true :: (leafPaths r).getD (i - (leafPaths l).length) [] := by
  rw [leafPaths_node]
  rw [List.getD_append_right _ _ [] i (by rw [List.length_map]; exact h1)]
  rw [List.length_map]
  exact getD_map_cons true (leafPaths r) _ h2

theorem leafPaths_getD_zero (t : RTree) :
    (leafPaths t).getD 0 [] = recurse_left t := by
  induction t with
  | leaf v => rfl
  | node l r ihl ihr =>
    rw [getD_node_left l r 0 (leafPaths_length_pos l), ihl]
    rfl

theorem leafPaths_getD_last (t : RTree) :
    (leafPaths t).getD ((leafPaths t).length - 1) [] = recurse_right t := by
  induction t with
  | leaf v => rfl
  | node l r ihl ihr =>
    have hlp := leafPaths_length_pos l
    have hrp := leafPaths_length_pos r
    rw [leafPaths_node_length]
    rw [getD_node_right l r _ (by omega) (by omega)]
    rw [show (leafPaths l).length + (leafPaths r).length - 1 - (leafPaths l).length =
        (leafPaths r).length - 1 from by omega]
    rw [ihr]
    rfl

theorem leafPaths_all_true_last (t : RTree) :
    ∀ i, i < (leafPaths t).length →
      (∀ b ∈ (leafPaths t).getD i [], b = true) → i = (leafPaths t).length - 1 := by
  induction t with
  | leaf v =>
    intro i hi _
    have h1 : (leafPaths (RTree.leaf v)).length = 1 := rfl
    omega
  | node l r ihl ihr =>
    intro i hi hall
    rw [leafPaths_node_length] at hi ⊢
    by_cases h1 : i < (leafPaths l).length
    · rw [getD_node_left l r i h1] at hall
      exact absurd (hall false (by simp)) (by simp)
    · have h2 : (leafPaths l).length ≤ i := by omega
      rw [getD_node_right l r i h2 (by omega)] at hall
      have hinner : ∀ b ∈ (leafPaths r).getD (i - (leafPaths l).length) [], b = true :=
        fun b hb => hall b (List.mem_cons_of_mem _ hb)
      have := ihr (i - (leafPaths l).length) (by omega) hinner
      have hrp := leafPaths_length_pos r
      omega

theorem leafPaths_all_false_zero (t : RTree) :
    ∀ i, i < (leafPaths t).length →
      (∀ b ∈ (leafPaths t).getD i [], b = false) → i = 0 := by
  induction t with
  | leaf v =>
    intro i hi _
    have h1 : (leafPaths (RTree.leaf v)).length = 1 := rfl
    omega
  | node l r ihl ihr =>
    intro i hi hall
    rw [leafPaths_node_length] at hi
    by_cases h1 : i < (leafPaths l).length
    · rw [getD_node_left l r i h1] at hall
      have hinner : ∀ b ∈ (leafPaths l).getD i [], b = false :=
        fun b hb => hall b (List.mem_cons_of_mem _ hb)
      exact ihl i h1 hinner
    · have h2 : (leafPaths l).length ≤ i := by omega
      rw [getD_node_right l r i h2 (by omega)] at hall
      exact absurd (hall true (by simp)) (by simp)

theorem decomp_last_false :
    ∀ p : List Bool, ¬(∀ b ∈ p, b = true) →
      ∃ pre suf : List Bool, p = pre ++ false :: suf ∧ ∀ b ∈ suf, b = true := by
  intro p
  induction p using List.reverseRecOn with
  | nil => intro h; exact absurd (by simp) h
  | append_singleton ps b ih =>
    intro h
    cases b with
    | false => exact ⟨ps, [], by simp, by simp⟩
    | true =>
      have hps : ¬(∀ x ∈ ps, x = true) := by
        intro hall
        apply h
        intro x hx
        rcases List.mem_append.mp hx with h1 | h2
        · exact hall x h1
        · simpa using h2
      obtain ⟨pre, suf, heq, hsuf⟩ := ih hps
      refine ⟨pre, suf ++ [true], by rw [heq]; simp, ?_⟩
      intro x hx
      rcases List.mem_append.mp hx with h1 | h2
      · exact hsuf x h1
      · simpa using h2

theorem decomp_last_true :
    ∀ p : List Bool, ¬(∀ b ∈ p, b = false) →
      ∃ pre suf : List Bool, p = pre ++ true :: suf ∧ ∀ b ∈ suf, b = false := by
  intro p
  induction p using List.reverseRecOn with
  | nil => intro h; exact absurd (by simp) h
  | append_singleton ps b ih =>
    intro h
    cases b with
    | true => exact ⟨ps, [], by simp, by simp⟩
    | false =>
      have hps : ¬(∀ x ∈ ps, x = false) := by
        intro hall
        apply h
        intro x hx
        rcases List.mem_append.mp hx with h1 | h2
        · exact hall x h1
        · simpa using h2
      obtain ⟨pre, suf, heq, hsuf⟩ := ih hps
      refine ⟨pre, suf ++ [false], by rw [heq]; simp, ?_⟩
      intro x hx
      rcases List.mem_append.mp hx with h1 | h2
      · exact hsuf x h1
      · simpa using h2

theorem nextUp_allTrue_append (t : RTree) :
    ∀ (q z : List Bool), (∀ b ∈ q, b = true) → nextUp t (q ++ z) = nextUp t z := by
  intro q
  induction q with
  | nil => intro z _; rfl
  | cons b q ih =>
    intro z h
    have hb : b = true := h b (List.mem_cons_self b q)
    subst hb
    show nextUp t (q ++ z) = nextUp t z
    exact ih z (fun x hx => h x (List.mem_cons_of_mem _ hx))

theorem prevUp_allFalse_append (t : RTree) :
    ∀ (q z : List Bool), (∀ b ∈ q, b = false) → prevUp t (q ++ z) = prevUp t z := by
  intro q
  induction q with
  | nil => intro z _; rfl
  | cons b q ih =>
    intro z h
    have hb : b = false := h b (List.mem_cons_self b q)
    subst hb
    show prevUp t (q ++ z) = prevUp t z
    exact ih z (fun x hx => h x (List.mem_cons_of_mem _ hx))

theorem next_of_allTrue (t : RTree) (p : List Bool) (h : ∀ b ∈ p, b = true) :
    get_next_region t p = recurse_left t := by
  unfold get_next_region
  have h3 := nextUp_allTrue_append t p.reverse []
    (fun b hb => h b (List.mem_reverse.mp hb))
  rw [List.append_nil] at h3
  rw [h3]
  rfl

theorem prev_of_allFalse (t : RTree) (p : List Bool) (h : ∀ b ∈ p, b = false) :
    get_previous_region t p = recurse_right t := by
  unfold get_previous_region
  have h3 := prevUp_allFalse_append t p.reverse []
    (fun b hb => h b (List.mem_reverse.mp hb))
  rw [List.append_nil] at h3
  rw [h3]
  rfl

theorem next_decomp (t : RTree) (pre suf : List Bool) (hs : ∀ b ∈ suf, b = true) :
    get_next_region t (pre ++ false :: suf) =
      (pre ++ [true]) ++
        recurse_left ((subtreeAt t (pre ++ [true])).getD (RTree.leaf 0)) := by
  unfold get_next_region
  have hrev : (pre ++ false :: suf).reverse = suf.reverse ++ false :: pre.reverse := by
    simp
  rw [hrev, nextUp_allTrue_append t suf.reverse (false :: pre.reverse)
    (fun b hb => hs b (List.mem_reverse.mp hb))]
  rw [show nextUp t (false :: pre.reverse) =
      (pre.reverse.reverse ++ [true]) ++
        recurse_left ((subtreeAt t (pre.reverse.reverse ++ [true])).getD (RTree.leaf 0))
    from rfl]
  rw [List.reverse_reverse]

theorem prev_decomp (t : RTree) (pre suf : List Bool) (hs : ∀ b ∈ suf, b = false) :
    get_previous_region t (pre ++ true :: suf) =
      (pre ++ [false]) ++
        recurse_right ((subtreeAt t (pre ++ [false])).getD (RTree.leaf 0)) := by
  unfold get_previous_region
  have hrev : (pre ++ true :: suf).reverse = suf.reverse ++ true :: pre.reverse := by
    simp
  rw [hrev, prevUp_allFalse_append t suf.reverse (true :: pre.reverse)
    (fun b hb => hs b (List.mem_reverse.mp hb))]
  rw [show prevUp t (true :: pre.reverse) =
      (pre.reverse.reverse ++ [false]) ++
        recurse_right ((subtreeAt t (pre.reverse.reverse ++ [false])).getD (RTree.leaf 0))
    from rfl]
  rw [List.reverse_reverse]

theorem subtreeAt_node_false (l r : RTree) (p : List Bool) :
    subtreeAt (RTree.node l r) (false :: p) = subtreeAt l p := rfl

theorem subtreeAt_node_true (l r : RTree) (p : List Bool) :
    subtreeAt (RTree.node l r) (true :: p) = subtreeAt r p := rfl

theorem next_cons_false (l r : RTree) (p : List Bool) (hp : ¬(∀ b ∈ p, b = true)) :
    get_next_region (RTree.node l r) (false :: p) = false :: get_next_region l p := by
  obtain ⟨pre, suf, heq, hsuf⟩ := decomp_last_false p hp
  rw [heq]
  rw [show (false :: (pre ++ false :: suf) : List Bool) =
      (false :: pre) ++ false :: suf from rfl]
  rw [next_decomp (RTree.node l r) (false :: pre) suf hsuf]
  rw [next_decomp l pre suf hsuf]
  rw [show ((false :: pre) ++ [true] : List Bool) = false :: (pre ++ [true]) from rfl]
  rw [subtreeAt_node_false]
  rfl

theorem next_cons_true (l r : RTree) (p : List Bool) (hp : ¬(∀ b ∈ p, b = true)) :
    get_next_region (RTree.node l r) (true :: p) = true :: get_next_region r p := by
  obtain ⟨pre, suf, heq, hsuf⟩ := decomp_last_false p hp
  rw [heq]
  rw [show (true :: (pre ++ false :: suf) : List Bool) =
      (true :: pre) ++ false :: suf from rfl]
  rw [next_decomp (RTree.node l r) (true :: pre) suf hsuf]
  rw [next_decomp r pre suf hsuf]
  rw [show ((true :: pre) ++ [true] : List Bool) = true :: (pre ++ [true]) from rfl]
  rw [subtreeAt_node_true]
  rfl

theorem prev_cons_false (l r : RTree) (p : List Bool) (hp : ¬(∀ b ∈ p, b = false)) :
    get_previous_region (RTree.node l r) (false :: p) =
      false :: get_previous_region l p := by
  obtain ⟨pre, suf, heq, hsuf⟩ := decomp_last_true p hp
  rw [heq]
  rw [show (false :: (pre ++ true :: suf) : List Bool) =
      (false :: pre) ++ true :: suf from rfl]
  rw [prev_decomp (RTree.node l r) (false :: pre) suf hsuf]
  rw [prev_decomp l pre suf hsuf]
  rw [show ((false :: pre) ++ [false] : List Bool) = false :: (pre ++ [false]) from rfl]
  rw [subtreeAt_node_false]
  rfl

theorem prev_cons_true (l r : RTree) (p : List Bool) (hp : ¬(∀ b ∈ p, b = false)) :
    get_previous_region (RTree.node l r) (true :: p) =
      true :: get_previous_region r p := by
  obtain ⟨pre, suf, heq, hsuf⟩ := decomp_last_true p hp
  rw [heq]
  rw [show (true :: (pre ++ true :: suf) : List Bool) =
      (true :: pre) ++ true :: suf from rfl]
  rw [prev_decomp (RTree.node l r) (true :: pre) suf hsuf]
  rw [prev_decomp r pre suf hsuf]
  rw [show ((true :: pre) ++ [false] : List Bool) = true :: (pre ++ [false]) from rfl]
  rw [subtreeAt_node_true]
  rfl

theorem next_region_getD (t : RTree) :
    ∀ i, i + 1 < (leafPaths t).length →
      get_next_region t ((leafPaths t).getD i []) = (leafPaths t).getD (i + 1) [] := by
  induction t with
  | leaf v =>
    intro i hi
    have h1 : (leafPaths (RTree.leaf v)).length = 1 := rfl
    omega
  | node l r ihl ihr =>
    intro i hi
    rw [leafPaths_node_length] at hi
    have hlp := leafPaths_length_pos l
    have hrp := leafPaths_length_pos r
    by_cases h1 : i + 1 < (leafPaths l).length
    · have hna : ¬(∀ b ∈ (leafPaths l).getD i [], b = true) := by
        intro hall
        have := leafPaths_all_true_last l i (by omega) hall
        omega
      rw [getD_node_left l r i (by omega), getD_node_left l r (i + 1) h1,
          next_cons_false l r _ hna, ihl i h1]
    · by_cases h2 : i + 1 = (leafPaths l).length
      · rw [getD_node_left l r i (by omega)]
        rw [show i = (leafPaths l).length - 1 from by omega, leafPaths_getD_last l]
        rw [show (false :: recurse_right l : List Bool) =
            [] ++ false :: recurse_right l from rfl]
        rw [next_decomp (RTree.node l r) [] (recurse_right l) (recurse_right_all_true l)]
        rw [getD_node_right l r ((leafPaths l).length - 1 + 1) (by omega) (by omega)]
        rw [show (leafPaths l).length - 1 + 1 - (leafPaths l).length = 0 from by omega]
        rw [leafPaths_getD_zero r]
        simp [subtreeAt]
      · have h3 : (leafPaths l).length ≤ i := by omega
        have hna : ¬(∀ b ∈ (leafPaths r).getD (i - (leafPaths l).length) [], b = true) := by
          intro hall
          have := leafPaths_all_true_last r (i - (leafPaths l).length) (by omega) hall
          omega
        rw [getD_node_right l r i h3 (by omega),
            getD_node_right l r (i + 1) (by omega) (by omega),
            next_cons_true l r _ hna,
            ihr (i - (leafPaths l).length) (by omega)]
        rw [show i + 1 - (leafPaths l).length = i - (leafPaths l).length + 1 from by omega]

theorem prev_region_getD (t : RTree) :
    ∀ i, i + 1 < (leafPaths t).length →
      get_previous_region t ((leafPaths t).getD (i + 1) []) =
        (leafPaths t).getD i [] := by
  induction t with
  | leaf v =>
    intro i hi
    have h1 : (leafPaths (RTree.leaf v)).length = 1 := rfl
    omega
  | node l r ihl ihr =>
    intro i hi
    rw [leafPaths_node_length] at hi
    have hlp := leafPaths_length_pos l
    have hrp := leafPaths_length_pos r
    by_cases h1 : i + 1 < (leafPaths l).length
    · have hna : ¬(∀ b ∈ (leafPaths l).getD (i + 1) [], b = false) := by
        intro hall
        have := leafPaths_all_false_zero l (i + 1) (by omega) hall
        omega
      rw [getD_node_left l r (i + 1) h1, getD_node_left l r i (by omega),
          prev_cons_false l r _ hna, ihl i h1]
    · by_cases h2 : i + 1 = (leafPaths l).length
      · rw [getD_node_right l r (i + 1) (by omega) (by omega)]
        rw [show i + 1 - (leafPaths l).length = 0 from by omega]
        rw [leafPaths_getD_zero r]
        rw [show (true :: recurse_left r : List Bool) =
            [] ++ true :: recurse_left r from rfl]
        rw [prev_decomp (RTree.node l r) [] (recurse_left r) (recurse_left_all_false r)]
        rw [getD_node_left l r i (by omega)]
        rw [show i = (leafPaths l).length - 1 from by omega, leafPaths_getD_last l]
        simp [subtreeAt]
      · have h3 : (leafPaths l).length ≤ i := by omega
        have hna : ¬(∀ b ∈ (leafPaths r).getD (i + 1 - (leafPaths l).length) [], b = false) := by
          intro hall
          have := leafPaths_all_false_zero r (i + 1 - (leafPaths l).length) (by omega) hall
          omega
        rw [getD_node_right l r (i + 1) (by omega) (by omega),
            getD_node_right l r i h3 (by omega),
            prev_cons_true l r _ hna]
        rw [show i + 1 - (leafPaths l).length = i - (leafPaths l).length + 1 from by omega]
        rw [ihr (i - (leafPaths l).length) (by omega)]

theorem next_region_getD_last (t : RTree) :
    get_next_region t ((leafPaths t).getD ((leafPaths t).length - 1) []) =
      (leafPaths t).getD 0 [] := by
  rw [leafPaths_getD_last, leafPaths_getD_zero]
  exact next_of_allTrue t (recurse_right t) (recurse_right_all_true t)

theorem prev_region_getD_zero (t : RTree) :
    get_previous_region t ((leafPaths t).getD 0 []) =
      (leafPaths t).getD ((leafPaths t).length - 1) [] := by
  rw [leafPaths_getD_zero, leafPaths_getD_last]
  exact prev_of_allFalse t (recurse_left t) (recurse_left_all_false t)

theorem next_iterate_getD (t : RTree) :
    ∀ k, k < (leafPaths t).length →
      (fun p => get_next_region t p)^[k] (recurse_left t) = (leafPaths t).getD k [] := by
  intro k
  induction k with
  | zero =>
    intro h
    rw [Function.iterate_zero_apply, leafPaths_getD_zero]
  | succ m ih =>
    intro h
    rw [Function.iterate_succ_apply', ih (by omega)]
    exact next_region_getD t m h

theorem map_range_getD (L : List (List Bool)) :
    (List.range L.length).map (fun k => L.getD k []) = L := by
  induction L with
  | nil => rfl
  | cons a L ih =>
    rw [List.length_cons, List.range_succ_eq_map, List.map_cons, List.map_map]
    have hc : ((fun k => (a :: L).getD k []) ∘ Nat.succ) = fun k => L.getD k [] := by
      funext k
      rfl
    rw [hc, ih]
    rfl

theorem leafPaths_nodup (t : RTree) : (leafPaths t).Nodup := by
  induction t with
  | leaf v => simp [leafPaths]
  | node l r ihl ihr =>
    rw [leafPaths_node, List.nodup_append]
    refine ⟨ihl.map (fun a b hab => by injection hab),
            ihr.map (fun a b hab => by injection hab), ?_⟩
    intro x hx1 hx2
    obtain ⟨a, _, ha⟩ := List.mem_map.mp hx1
    obtain ⟨b, _, hb⟩ := List.mem_map.mp hx2
    rw [← ha] at hb
    injection hb with h1 h2
    exact Bool.noConfusion h1

theorem prev_next_id (t : RTree) : ∀ p ∈ leafPaths t,
    get_previous_region t (get_next_region t p) = p := by
  intro p hp
  obtain ⟨i, hi, hieq⟩ := List.mem_iff_getElem.mp hp
  have hgd : (leafPaths t).getD i [] = p := by
    rw [List.getD_eq_getElem (leafPaths t) [] hi]
    exact hieq
  by_cases hlast : i + 1 < (leafPaths t).length
  · rw [← hgd, next_region_getD t i hlast, prev_region_getD t i hlast]
  · have hieq2 : i = (leafPaths t).length - 1 := by omega
    rw [← hgd, hieq2, next_region_getD_last t, prev_region_getD_zero t]

theorem next_prev_id (t : RTree) : ∀ p ∈ leafPaths t,
    get_next_region t (get_previous_region t p) = p := by
  intro p hp
  obtain ⟨i, hi, hieq⟩ := List.mem_iff_getElem.mp hp
  have hgd : (leafPaths t).getD i [] = p := by
    rw [List.getD_eq_getElem (leafPaths t) [] hi]
    exact hieq
  by_cases h0 : i = 0
  · rw [← hgd, h0, prev_region_getD_zero t, next_region_getD_last t]
  · obtain ⟨j, hj⟩ : ∃ j, i = j + 1 := ⟨i - 1, by omega⟩
    rw [← hgd, hj, prev_region_getD t j (by omega), next_region_getD t j (by omega)]

/-- Claim C7 (confirmed): iterating get_next_region from the leftmost leaf of
any region tree lists exactly the leaf paths in left-to-right order (each
leaf once, since the path list has no duplicates) and returns to the start
after exactly as many steps as there are leaves; get_previous_region is the
two-sided inverse of get_next_region on leaf paths. -/
theorem region_traversal_cycle (t : RTree) :
    ((List.range (leafPaths t).length).map
        (fun k => (fun p => get_next_region t p)^[k] (recurse_left t)) = leafPaths t) ∧
    ((fun p => get_next_region t p)^[(leafPaths t).length] (recurse_left t) =
        recurse_left t) ∧
    (leafPaths t).Nodup ∧
    (∀ p ∈ leafPaths t, get_previous_region t (get_next_region t p) = p) ∧
    (∀ p ∈ leafPaths t, get_next_region t (get_previous_region t p) = p) := by
  refine ⟨?_, ?_, leafPaths_nodup t, prev_next_id t, next_prev_id t⟩
  · have h1 : (List.range (leafPaths t).length).map
        (fun k => (fun p => get_next_region t p)^[k] (recurse_left t)) =
        (List.range (leafPaths t).length).map (fun k => (leafPaths t).getD k []) :=
      List.map_congr_left (fun k hk => next_iterate_getD t k (List.mem_range.mp hk))
    rw [h1, map_range_getD]
  · obtain ⟨m, hm⟩ : ∃ m, (leafPaths t).length = m + 1 :=
      ⟨(leafPaths t).length - 1, by have := leafPaths_length_pos t; omega⟩
    rw [hm, Function.iterate_succ_apply', next_iterate_getD t m (by omega)]
    rw [show m = (leafPaths t).length - 1 from by omega]
    rw [next_region_getD_last t, leafPaths_getD_zero]

/-! ## Claim C10: Escape restores the cursor saved on entering find mode -/

@[simp]
theorem limit_window_cursor_saved_x (files : List FileM) (w : Window) :
    (limit_window_cursor files w).saved_cursor_x = w.saved_cursor_x := rfl

@[simp]
theorem limit_window_cursor_saved_y (files : List FileM) (w : Window) :
    (limit_window_cursor files w).saved_cursor_y = w.saved_cursor_y := rfl

@[simp]
theorem set_cursor_saved_x (w : Window) :
    (set_cursor_based_on_position w).saved_cursor_x = w.saved_cursor_x := by
  simp only [set_cursor_based_on_position]
  split <;> rfl

@[simp]
theorem set_cursor_saved_y (w : Window) :
    (set_cursor_based_on_position w).saved_cursor_y = w.saved_cursor_y := by
  simp only [set_cursor_based_on_position]
  split <;> rfl

@[simp]
theorem find_in_file_saved_x (files : List FileM) (w : Window) :
    (find_in_file files w).saved_cursor_x = w.saved_cursor_x := by
  simp only [find_in_file]
  split
  · rfl
  · split <;> rw [set_cursor_saved_x]

@[simp]
theorem find_in_file_saved_y (files : List FileM) (w : Window) :
    (find_in_file files w).saved_cursor_y = w.saved_cursor_y := by
  simp only [find_in_file]
  split
  · rfl
  · split <;> rw [set_cursor_saved_y]

@[simp]
theorem change_file_saved_x (w : Window) (fi : Nat) :
    (change_file w fi).saved_cursor_x = w.saved_cursor_x := by
  unfold change_file
  dsimp only
  repeat' split
  all_goals rfl

@[simp]
theorem change_file_saved_y (w : Window) (fi : Nat) :
    (change_file w fi).saved_cursor_y = w.saved_cursor_y := by
  unfold change_file
  dsimp only
  repeat' split
  all_goals rfl

@[simp]
theorem split_window_effect_saved_x (w : Window) (v : Bool) :
    (split_window_effect w v).saved_cursor_x = w.saved_cursor_x := by
  unfold split_window_effect
  split <;> rfl

@[simp]
theorem split_window_effect_saved_y (w : Window) (v : Bool) :
    (split_window_effect w v).saved_cursor_y = w.saved_cursor_y := by
  unfold split_window_effect
  split <;> rfl

@[simp]
theorem display_error_saved_x (w : Window) (msg : List Nat) :
    (display_error w msg).saved_cursor_x = w.saved_cursor_x := rfl

@[simp]
theorem display_error_saved_y (w : Window) (msg : List Nat) :
    (display_error w msg).saved_cursor_y = w.saved_cursor_y := rfl

theorem handle_command_saved (st st' : EState) (h : handle_command st = some st') :
    st'.window.saved_cursor_x = st.window.saved_cursor_x ∧
      st'.window.saved_cursor_y = st.window.saved_cursor_y := by
  simp only [handle_command] at h
  repeat' split at h
  all_goals first
    | (injection h with h2
       subst h2
       exact ⟨by simp, by simp⟩)
    | exact absurd h (by simp)

theorem handle_minibar_enter_saved (st st' : EState)
    (h : handle_minibar_enter st = some st') :
    st'.window.saved_cursor_x = st.window.saved_cursor_x ∧
      st'.window.saved_cursor_y = st.window.saved_cursor_y := by
  simp only [handle_minibar_enter] at h
  rw [Option.map_eq_some'] at h
  obtain ⟨a, ha, hfa⟩ := h
  subst hfa
  have hgoal : a.window.saved_cursor_x = st.window.saved_cursor_x ∧
      a.window.saved_cursor_y = st.window.saved_cursor_y := by
    repeat' split at ha
    all_goals first
      | (injection ha with h2
         subst h2
         exact ⟨by simp, by simp⟩)
      | exact handle_command_saved st a ha
  exact hgoal

set_option maxHeartbeats 1000000 in
theorem minibar_keypress_saved (st : EState) (k : Nat) (st' : EState)
    (h : minibar_handle_keypress st k = some st') :
    st'.window.saved_cursor_x = st.window.saved_cursor_x ∧
      st'.window.saved_cursor_y = st.window.saved_cursor_y := by
  simp only [minibar_handle_keypress] at h
  rw [Option.map_eq_some'] at h
  obtain ⟨a, ha, hfa⟩ := h
  subst hfa
  have hgoal : a.window.saved_cursor_x = st.window.saved_cursor_x ∧
      a.window.saved_cursor_y = st.window.saved_cursor_y := by
    by_cases c1 : 32 ≤ k ∧ k ≤ 126
    · rw [if_pos c1] at ha
      injection ha with h2
      subst h2
      constructor <;>
        (dsimp only
         split <;>
           first
             | rfl
             | rw [find_in_file_saved_x]
             | rw [find_in_file_saved_y])
    · rw [if_neg c1] at ha
      by_cases c2 : k = KeyCodeEscape
      · rw [if_pos c2] at ha
        injection ha with h2
        subst h2
        exact ⟨rfl, rfl⟩
      · rw [if_neg c2] at ha
        by_cases c3 : k = KeyCodeLeft
        · rw [if_pos c3] at ha
          injection ha with h2
          subst h2
          exact ⟨rfl, rfl⟩
        · rw [if_neg c3] at ha
          by_cases c4 : k = KeyCodeUp
          · rw [if_pos c4] at ha
            by_cases c4a : st.window.minibar_mode = MinibarModeFind ∧
                st.window.«matches».length ≠ 0
            · rw [if_pos c4a] at ha
              injection ha with h2
              subst h2
              exact ⟨by dsimp only; rw [set_cursor_saved_x],
                     by dsimp only; rw [set_cursor_saved_y]⟩
            · rw [if_neg c4a] at ha
              injection ha with h2
              subst h2
              exact ⟨rfl, rfl⟩
          · rw [if_neg c4] at ha
            by_cases c5 : k = KeyCodeDown
            · rw [if_pos c5] at ha
              by_cases c5a : st.window.minibar_mode = MinibarModeFind ∧
                  st.window.«matches».length ≠ 0
              · rw [if_pos c5a] at ha
                injection ha with h2
                subst h2
                exact ⟨by dsimp only; rw [set_cursor_saved_x],
                       by dsimp only; rw [set_cursor_saved_y]⟩
              · rw [if_neg c5a] at ha
                injection ha with h2
                subst h2
                exact ⟨rfl, rfl⟩
            · rw [if_neg c5] at ha
              by_cases c6 : k = KeyCodeCtrlDown
              · rw [if_pos c6] at ha
                by_cases c6a : st.window.minibar_mode = MinibarModeFind ∧
                    st.window.«matches».length ≠ 0
                · rw [if_pos c6a] at ha
                  injection ha with h2
                  subst h2
                  exact ⟨by dsimp only; rw [set_cursor_saved_x],
                         by dsimp only; rw [set_cursor_saved_y]⟩
                · rw [if_neg c6a] at ha
                  injection ha with h2
                  subst h2
                  exact ⟨rfl, rfl⟩
              · rw [if_neg c6] at ha
                by_cases c7 : k = KeyCodeRight
                · rw [if_pos c7] at ha
                  injection ha with h2
                  subst h2
                  exact ⟨rfl, rfl⟩
                · rw [if_neg c7] at ha
                  by_cases c8 : k = KeyCodeHome
                  · rw [if_pos c8] at ha
                    injection ha with h2
                    subst h2
                    exact ⟨rfl, rfl⟩
                  · rw [if_neg c8] at ha
                    by_cases c9 : k = KeyCodeEnd
                    · rw [if_pos c9] at ha
                      injection ha with h2
                      subst h2
                      exact ⟨rfl, rfl⟩
                    · rw [if_neg c9] at ha
                      by_cases c10 : k = KeyCodeCtrlDelete ∨ k = KeyCodeDelete
                      · rw [if_pos c10] at ha
                        by_cases c10a : st.window.minibar_cursor ≠ 0
                        · rw [if_pos c10a] at ha
                          injection ha with h2
                          subst h2
                          constructor <;>
                            (dsimp only
                             split <;>
                               first
                                 | rfl
                                 | rw [find_in_file_saved_x]
                                 | rw [find_in_file_saved_y])
                        · rw [if_neg c10a] at ha
                          injection ha with h2
                          subst h2
                          exact ⟨rfl, rfl⟩
                      · rw [if_neg c10] at ha
                        by_cases c11 : k = KeyCodeEnter
                        · rw [if_pos c11] at ha
                          rw [Option.map_eq_some'] at ha
                          obtain ⟨b, hb, hg⟩ := ha
                          subst hg
                          exact handle_minibar_enter_saved st b hb
                        · rw [if_neg c11] at ha
                          injection ha with h2
                          subst h2
                          exact ⟨rfl, rfl⟩
  refine ⟨?_, ?_⟩ <;> split <;>
    simp only [limit_window_cursor_saved_x, limit_window_cursor_saved_y, hgoal.1, hgoal.2]

theorem mstep_enter_find (st st' : EState)
    (h : mstep st (MEvent.enter MinibarModeFind) = some st') :
    st'.window.saved_cursor_x = st.window.cursor_x ∧
      st'.window.saved_cursor_y = st.window.cursor_y := by
  injection h with h2
  subst h2
  constructor <;> simp [enter_minibar_mode]

theorem mstep_saved (st st' : EState) (ev : MEvent) (h : mstep st ev = some st')
    (hne : ev ≠ MEvent.enter MinibarModeFind) :
    st'.window.saved_cursor_x = st.window.saved_cursor_x ∧
      st'.window.saved_cursor_y = st.window.saved_cursor_y := by
  cases ev with
  | enter m =>
    have hm : ¬m = MinibarModeFind := fun he => hne (by rw [he])
    injection h with h2
    subst h2
    constructor <;> (simp only [enter_minibar_mode]; rw [if_neg hm])
  | key k => exact minibar_keypress_saved st k st' h

theorem mrun_saved (evs : List MEvent) : ∀ (st st' : EState),
    mrun st evs = some st' → MEvent.enter MinibarModeFind ∉ evs →
    st'.window.saved_cursor_x = st.window.saved_cursor_x ∧
      st'.window.saved_cursor_y = st.window.saved_cursor_y := by
  induction evs with
  | nil =>
    intro st st' h _
    injection h with h2
    subst h2
    exact ⟨rfl, rfl⟩
  | cons e es ih =>
    intro st st' h hne
    unfold mrun at h
    rw [Option.bind_eq_some] at h
    obtain ⟨st2, h1, h2⟩ := h
    have hee : e ≠ MEvent.enter MinibarModeFind :=
      fun hh => hne (by rw [hh]; exact List.mem_cons_self _ _)
    have hs1 := mstep_saved st st2 e h1 hee
    have hs2 := ih st2 st' h2 (fun hm => hne (List.mem_cons_of_mem e hm))
    exact ⟨hs2.1.trans hs1.1, hs2.2.trans hs1.2⟩

theorem mhk_escape (st : EState) : ∃ st2 : EState,
    minibar_handle_keypress st KeyCodeEscape =
      some (if st2.window.file.isSome
            then { st2 with window := limit_window_cursor st2.files st2.window }
            else st2) ∧
    st2.window.cursor_x = st.window.saved_cursor_x ∧
    st2.window.cursor_y = st.window.saved_cursor_y ∧
    st2.files = st.files := by
  refine ⟨{ st with window := exit_minibar_mode { st.window with cursor_x := st.window.saved_cursor_x, cursor_y := st.window.saved_cursor_y, «matches» := ([] : List (Nat × Nat)), redraw := true } }, ?_, rfl, rfl, rfl⟩
  simp only [minibar_handle_keypress]
  rw [if_pos trivial]
  rfl

/-- Claim C10 (confirmed): pressing Escape while the minibar is active hands
back a state whose cursor equals saved_cursor_x/saved_cursor_y before the
final clamp; the saved cursor is written only by entering find mode (where it
records the cursor), every other minibar event preserves it, so over any
event trace without a find entry it is unchanged, and after the most recent
entry into find mode it equals the cursor recorded at that entry. -/
theorem minibar_escape_restores_find_cursor :
    (∀ st : EState, ∃ st2 : EState,
        minibar_handle_keypress st KeyCodeEscape =
          some (if st2.window.file.isSome
                then { st2 with window := limit_window_cursor st2.files st2.window }
                else st2) ∧
        st2.window.cursor_x = st.window.saved_cursor_x ∧
        st2.window.cursor_y = st.window.saved_cursor_y ∧
        st2.files = st.files) ∧
    (∀ (st st' : EState),
        mstep st (MEvent.enter MinibarModeFind) = some st' →
        st'.window.saved_cursor_x = st.window.cursor_x ∧
        st'.window.saved_cursor_y = st.window.cursor_y) ∧
    (∀ (st st' : EState) (ev : MEvent), mstep st ev = some st' →
        ev ≠ MEvent.enter MinibarModeFind →
        st'.window.saved_cursor_x = st.window.saved_cursor_x ∧
        st'.window.saved_cursor_y = st.window.saved_cursor_y) ∧
    (∀ (st st' : EState) (evs : List MEvent), mrun st evs = some st' →
        MEvent.enter MinibarModeFind ∉ evs →
        st'.window.saved_cursor_x = st.window.saved_cursor_x ∧
        st'.window.saved_cursor_y = st.window.saved_cursor_y) ∧
    (∀ (stmid st3 st' : EState) (evs : List MEvent),
        mstep stmid (MEvent.enter MinibarModeFind) = some st3 →
        mrun st3 evs = some st' →
        MEvent.enter MinibarModeFind ∉ evs →
        st'.window.saved_cursor_x = stmid.window.cursor_x ∧
        st'.window.saved_cursor_y = stmid.window.cursor_y) := by
  refine ⟨mhk_escape, mstep_enter_find, ?_, ?_, ?_⟩
  · exact fun st st' ev h hne => mstep_saved st st' ev h hne
  · exact fun st st' evs h hne => mrun_saved evs st st' h hne
  · intro stmid st3 st' evs h1 h2 h3
    have ha := mstep_enter_find stmid st3 h1
    have hb := mrun_saved evs st3 st' h2 h3
    exact ⟨hb.1.trans ha.1, hb.2.trans ha.2⟩

/-- Claim C10 witness: the trace `enter command minibar, press Escape` from
the freshly started state leaves the saved cursor at (0, 0). -/
theorem minibar_escape_restores_find_cursor_witness :
    ({ estate0 with window := { window0 with minibar_mode := 2 } } : EState).window.saved_cursor_x
        = estate0.window.saved_cursor_x ∧
    ({ estate0 with window := { window0 with minibar_mode := 2 } } : EState).window.saved_cursor_y
        = estate0.window.saved_cursor_y :=
  minibar_escape_restores_find_cursor.2.2.2.1 estate0
    { estate0 with window := { window0 with minibar_mode := 2 } }
    [MEvent.enter MinibarModeCommand, MEvent.key KeyCodeEscape]
    (by decide) (by decide)

end Editor
